import Mathlib

/-!
Shallow embedding of the h2o2 component-install core, translated from
`src/install/helper/utils.rs` (mirror race), `src/install/install.rs`
(dependency wait and install dispatch), `src/install/main.rs`
(orchestrator setup and completion loop) and `src/config.rs`
(component table and version serialization).

Modelling conventions:
* Rust `Duration` values are Nat (a fixed time unit);
* Rust panics (`expect`, `unwrap`, `unreachable!`, division of a
  `Duration` by zero) are modelled by an `Option` layer, `none` meaning
  the panic;
* the probe/network/process side effects are inputs: a probe attempt is
  `Option Nat` (`some latency` on success, `none` on failure), external
  version detection results are fields of `Detect`;
* the embedding follows the linux (non-windows) build of the crate, so
  `maybe_cmd!` is the identity on command names.
-/

namespace H2O2

/-- The seven managed components (`install.rs`, `enum Com`).
`Minio` is spelled `MinIO` in the source. -/
inductive Com where
  | NodeJS
  | MongoDB
  | Minio
  | Sandbox
  | Yarn
  | PM2
  | Hydro
deriving DecidableEq

/-- Per-mirror aggregated probe score (`helper/utils.rs`, `struct TestResult`):
`error` failed attempts, `total` summed latency of successful attempts. -/
structure TestResult where
  error : Nat
  total : Nat
deriving DecidableEq

namespace TestResult

/-- `helper/utils.rs`: `const ATTEMPT_TIMES: u32 = 5`. -/
def ATTEMPT_TIMES : Nat := 5

/-- `helper/utils.rs`, `TestResult::is_failed`. -/
def is_failed (r : TestResult) : Bool := r.error = ATTEMPT_TIMES

/-- `helper/utils.rs`, `TestResult::average`, with the panic made explicit:
`self.total / (Self::ATTEMPT_TIMES - self.error)` panics (returns `none`)
when `error ≥ ATTEMPT_TIMES` (underflowing subtraction or division of a
`Duration` by zero). -/
def average? (r : TestResult) : Option Nat :=
  if ATTEMPT_TIMES ≤ r.error then none
  else some (r.total / (ATTEMPT_TIMES - r.error))

/-- `helper/utils.rs`, `Ord for TestResult`: compare error counts, break
ties (between non-failed results) by average latency.  This is the total
version used by selection; `cmp?` below instruments the panic.  On inputs
with `error ≤ 5` (the only ones the program builds) the Nat subtraction
and division agree with the Rust expression. -/
def cmp (a b : TestResult) : Ordering :=
  match compare a.error b.error with
  | .eq =>
    if a.is_failed then .eq
    else compare (a.total / (ATTEMPT_TIMES - a.error)) (b.total / (ATTEMPT_TIMES - b.error))
  | ord => ord

/-- `helper/utils.rs`, `Ord for TestResult`, with the average-latency
panic threaded through: `none` exactly when an `average` call panics. -/
def cmp? (a b : TestResult) : Option Ordering :=
  match compare a.error b.error with
  | .eq =>
    if a.is_failed then some .eq
    else do
      let x ← a.average?
      let y ← b.average?
      pure (compare x y)
  | ord => some ord

end TestResult

/-- Aggregation loop of `determine_mirror` (`helper/utils.rs` lines 89-100):
each received probe outcome either adds its latency to `total` or bumps
`error`.  One mirror's five attempts are processed in order; outcomes of
different mirrors land in different slots, so the per-mirror fold is the
per-slot effect of the interleaved channel loop. -/
def score (attempts : List (Option Nat)) : TestResult :=
  attempts.foldl
    (fun r o =>
      match o with
      | some t => { r with total := r.total + t }
      | none => { r with error := r.error + 1 })
    ⟨0, 0⟩

/-- Rust `Iterator::min_by` as a left fold: `reduce` keeping the
accumulator unless it compares strictly greater than the next element
(`core::cmp::min_by` returns its first argument on `Equal`). -/
def minBy (f : α → α → Ordering) : List α → Option α
  | [] => none
  | x :: xs => some (xs.foldl (fun acc y => if f acc y = .gt then y else acc) x)

/-- `helper/utils.rs`, `determine_mirror`, after the probe phase: `mirrors`
are the candidate base urls, `probes` the per-candidate attempt outcomes
(the network side effects, supplied as input).  Scores are ranked by
`TestResult.cmp` over the enumerated list; a failed winner means "no
available source". -/
def determine_mirror (mirrors : List String) (probes : List (List (Option Nat))) :
    Option String :=
  let results := (probes.map score).enum
  (minBy (fun a b => TestResult.cmp a.2 b.2) results).bind
    (fun p => if p.2.is_failed then none else mirrors.get? p.1)

namespace TestResult

/-- Proof-side abbreviation: the second ranking component of a score
(0 for a failed score, the average latency otherwise). -/
def rsnd (r : TestResult) : Nat :=
  if r.is_failed then 0 else r.total / (ATTEMPT_TIMES - r.error)

end TestResult
/-! ### Data model (`config.rs`) -/

/-- Prerelease identifier of a semantic version: numeric (no leading
zeros, printed from the Nat) or alphanumeric (raw characters).  Models
the identifiers the `semver` crate validates. -/
inductive PreId where
  | num (n : Nat)
  | alpha (s : List Char)
deriving DecidableEq

/-- Model of `semver::Version` (an external collaborator of `config.rs`,
out of scope per spec.md §1): numeric core `major.minor.patch` plus
optional prerelease and build-metadata identifier lists. -/
structure SemVer where
  major : Nat
  minor : Nat
  patch : Nat
  pre : List PreId
  build : List (List Char)
deriving DecidableEq

/-- `config.rs`, `enum Version`. -/
inductive Version where
  | Unknown
  | Installed
  | Valid (v : SemVer)
  | Invalid (s : String)
deriving DecidableEq

/-- `IsVariant` derive: `Version::is_installed`. -/
def Version.is_installed : Version → Bool
  | .Installed => true
  | _ => false

/-- `IsVariant` derive: `Version::is_valid`. -/
def Version.is_valid : Version → Bool
  | .Valid _ => true
  | _ => false

/-- `config.rs`, `struct ComponentInfo`. -/
structure ComponentInfo where
  version : Version
  path : Option String
deriving DecidableEq

/-- `config.rs`, `ComponentInfo::is_installed`. -/
def ComponentInfo.is_installed (c : ComponentInfo) : Bool :=
  c.version.is_installed || c.version.is_valid

/-- `config.rs`, `ComponentInfo::version()` (the accessor returning
`Option<&semver::Version>`). -/
def ComponentInfo.version? (c : ComponentInfo) : Option SemVer :=
  match c.version with
  | .Valid v => some v
  | _ => none

/-- `config.rs`, `struct Components`: the canonical component table. -/
structure Components where
  nodejs : ComponentInfo
  mongodb : ComponentInfo
  minio : ComponentInfo
  sandbox : ComponentInfo
  yarn : ComponentInfo
  pm2 : ComponentInfo
  hydro : ComponentInfo
deriving DecidableEq

/-- `config.rs`, `Components::borrow_by_com`. -/
def Components.borrow_by_com (c : Components) (com : Com) : ComponentInfo :=
  match com with
  | .NodeJS => c.nodejs
  | .MongoDB => c.mongodb
  | .Minio => c.minio
  | .Sandbox => c.sandbox
  | .Yarn => c.yarn
  | .PM2 => c.pm2
  | .Hydro => c.hydro

/-- The completion loop's in-place write through the pointer obtained
from `borrow_by_com` (`install/main.rs` lines 240-248): it replaces
exactly the field `borrow_by_com` addresses. -/
def Components.write_by_com (c : Components) (com : Com) (info : ComponentInfo) :
    Components :=
  match com with
  | .NodeJS => { c with nodejs := info }
  | .MongoDB => { c with mongodb := info }
  | .Minio => { c with minio := info }
  | .Sandbox => { c with sandbox := info }
  | .Yarn => { c with yarn := info }
  | .PM2 => { c with pm2 := info }
  | .Hydro => { c with hydro := info }

/-! ### Signals, errors, dependency wait (`install.rs`) -/

/-- `install.rs`, `enum Signal`: the readiness-bus payload (a Ready
signal carries a snapshot of the resulting `ComponentInfo`). -/
inductive Signal where
  | Ready (c : Com) (info : ComponentInfo)
  | Failed (c : Com)
deriving DecidableEq

/-- `install.rs`, `enum ErrorKind` (external payloads kept as text). -/
inductive ErrorKind where
  | RecvError
  | DependencyError (c : Com)
  | PlatformNotSupported
  | NoAvailableSource
  | IOError (s : String)
  | RequestError (s : String)
  | RespError (s : String)
  | ChecksumMismatch
  | Other (s : String)
deriving DecidableEq

/-- `install.rs`, `struct Error { com, kind }`. -/
structure Error where
  com : Com
  kind : ErrorKind
deriving DecidableEq

/-- Rust `Vec::swap_remove(pos)`: overwrite position `pos` with the last
element and drop the last slot (only used with `pos` in bounds). -/
def swapRemove (l : List Com) (pos : Nat) : List Com :=
  (l.set pos (l.getLast?.getD Com.NodeJS)).dropLast

/-- The receive loop of `install.rs`' `wait_for_components!` macro (lines
102-129): `coms` is the outstanding-dependency vector, `res` the
`Either`-vector of pending ids / received infos, `sigs` the stream the
task's bus subscription delivers (an exhausted stream is the closed bus,
`RecvError`).  The `none` arm of the inner position lookup mirrors the
macro's `unwrap` (unreachable, see `wfcLoop_agree`).  The Rust loop
checks `!coms.is_empty()` before each receive; checking it before
inspecting the next signal returns the same value in every case and
keeps the recursion structural. -/
def wfcLoop (self : Com) (coms : List Com) (res : List (Sum Com ComponentInfo)) :
    List Signal → Except Error (List (Sum Com ComponentInfo))
  | [] => if coms.isEmpty then .ok res else .error ⟨self, .RecvError⟩
  | sig :: rest =>
    if coms.isEmpty then .ok res
    else
      match sig with
      | .Ready c info =>
        match coms.findIdx? (· = c) with
        | some pos =>
          let res' :=
            match res.findIdx? (fun x => match x with | .inl y => y = c | .inr _ => false) with
            | some p => res.set p (.inr info)
            | none => res
          wfcLoop self (swapRemove coms pos) res' rest
        | none => wfcLoop self coms res rest
      | .Failed c =>
        if (coms.findIdx? (· = c)).isSome then .error ⟨self, .DependencyError c⟩
        else wfcLoop self coms res rest

/-- Final extraction `res.into_iter().map(|x| x.right().unwrap())`, the
unwrap panic modelled as `none`. -/
def rightsAll : List (Sum Com ComponentInfo) → Option (List ComponentInfo)
  | [] => some []
  | .inr i :: t => (rightsAll t).map (i :: ·)
  | .inl _ :: _ => none

/-- `install.rs`, `wait_for_components!($com, $rx, deps...)`: run the
receive loop from the initial all-pending state and unwrap the results. -/
def wait_for_components (self : Com) (deps : List Com) (sigs : List Signal) :
    Except Error (Option (List ComponentInfo)) :=
  (wfcLoop self deps (deps.map .inl) sigs).map rightsAll

/-- Spec-side error taxonomy of the dependency wait (spec.md §4.3/§7). -/
inductive AwaitErr where
  | busClosed
  | depError (c : Com)
deriving DecidableEq

/-- Modelled from the spec (§4.3 `awaitAll`), for the refinement claim C4:
receive signals until a Ready has been seen for every required id (then
return their infos in the order of `required`), or a Failed arrives for
an id still outstanding (then fail with that id immediately); signals for
ids not in, or no longer outstanding in, the required set are discarded;
an exhausted subscription is the distinct bus-closed error. -/
def specGo (required : List Com) (seen : Com → Option ComponentInfo) :
    List Signal → Except AwaitErr (List ComponentInfo)
  | [] =>
    if required.all (fun d => (seen d).isSome) then .ok (required.filterMap seen)
    else .error .busClosed
  | sig :: rest =>
    if required.all (fun d => (seen d).isSome) then .ok (required.filterMap seen)
    else
      match sig with
      | .Ready c info =>
        if c ∈ required ∧ (seen c).isNone then
          specGo required (fun x => if x = c then some info else seen x) rest
        else specGo required seen rest
      | .Failed c =>
        if c ∈ required ∧ (seen c).isNone then .error (.depError c)
        else specGo required seen rest

/-- Spec-side dependency wait over a fresh subscription. -/
def specAwaitAll (required : List Com) (sigs : List Signal) :
    Except AwaitErr (List ComponentInfo) :=
  specGo required (fun _ => none) sigs

/-- Map a spec-side wait error to the implementation's error value. -/
def AwaitErr.toError (self : Com) : AwaitErr → Error
  | .busClosed => ⟨self, .RecvError⟩
  | .depError c => ⟨self, .DependencyError c⟩

/-- The `Either` vector kept by the wait loop, as a function of the ids
already seen. -/
def resOf (required : List Com) (seen : Com → Option ComponentInfo) :
    List (Sum Com ComponentInfo) :=
  required.map (fun d =>
    match seen d with
    | some i => Sum.inr i
    | none => Sum.inl d)

/-! ### Install dispatch (`install.rs`, `install`) -/

/-- The component of a signal. -/
def sigCom : Signal → Com
  | .Ready c _ => c
  | .Failed c => c

/-- Dependency table realized by `install`'s dispatch (spec §3,
DependencyTable): Yarn and PM2 require Node.js, Hydro requires Node.js
and Yarn, the rest have no dependencies. -/
def depsOf : Com → List Com
  | .Yarn => [.NodeJS]
  | .PM2 => [.NodeJS]
  | .Hydro => [.NodeJS, .Yarn]
  | _ => []

/-- The install bodies (`install_nodejs`, ..., `install_hydro`) perform
network and process IO; their outcomes are inputs of the model. -/
structure Bodies where
  nodejs : Except ErrorKind ComponentInfo
  mongodb : Except ErrorKind ComponentInfo
  minio : Except ErrorKind ComponentInfo
  sandbox : Except ErrorKind ComponentInfo
  yarn : ComponentInfo → Except ErrorKind ComponentInfo
  pm2 : ComponentInfo → Except ErrorKind ComponentInfo
  hydro : ComponentInfo → ComponentInfo → Except ErrorKind ComponentInfo

/-- `install.rs` line 159-160: `.map(|ok| (com, ok)).map_err(|e| Error::new(com, e))`. -/
def wrapBody (com : Com) (r : Except ErrorKind ComponentInfo) :
    Except Error (Com × ComponentInfo) :=
  (r.map (fun ok => (com, ok))).mapError (fun e => ⟨com, e⟩)

/-- `install.rs`, `pub async fn install(com, rx)`: dependency-free
components run their body at once; Yarn/PM2/Hydro first run the
dependency wait on their subscription and run their body only on
success.  The Bool records whether the body ran; `none` models the
panics (`expect` on a missing receiver, the macro's unwrap, and its
`unreachable!` arm). -/
def install (B : Bodies) (com : Com) (rx : Option (List Signal)) :
    Option (Except Error (Com × ComponentInfo) × Bool) :=
  match com with
  | .NodeJS => some (wrapBody com B.nodejs, true)
  | .MongoDB => some (wrapBody com B.mongodb, true)
  | .Minio => some (wrapBody com B.minio, true)
  | .Sandbox => some (wrapBody com B.sandbox, true)
  | .Yarn =>
    match rx with
    | none => none
    | some sigs =>
      match wait_for_components com [.NodeJS] sigs with
      | .error e => some (.error e, false)
      | .ok none => none
      | .ok (some infos) =>
        match infos with
        | [n] => some (wrapBody com (B.yarn n), true)
        | _ => none
  | .PM2 =>
    match rx with
    | none => none
    | some sigs =>
      match wait_for_components com [.NodeJS] sigs with
      | .error e => some (.error e, false)
      | .ok none => none
      | .ok (some infos) =>
        match infos with
        | [n] => some (wrapBody com (B.pm2 n), true)
        | _ => none
  | .Hydro =>
    match rx with
    | none => none
    | some sigs =>
      match wait_for_components com [.NodeJS, .Yarn] sigs with
      | .error e => some (.error e, false)
      | .ok none => none
      | .ok (some infos) =>
        match infos with
        | [n, y] => some (wrapBody com (B.hydro n y), true)
        | _ => none

/-! ### Orchestrator (`install/main.rs`) -/

/-- Results of the external version-detection commands run by the setup
blocks (`yarn -v`, `pm2 -v`, `node -v`, `mongod --version`, `minio -v`);
process side effects, supplied as input. -/
structure Detect where
  yarn : Option SemVer
  pm2 : Option SemVer
  nodejs : Option SemVer
  mongodb : Option SemVer
  minio : Bool
deriving DecidableEq

/-- Observable bus actions of the orchestrator, in program order:
`tx.subscribe()` calls (tagged by the task they are created for) and
`tx.send(signal)` calls. -/
inductive Event where
  | subscribe (c : Com)
  | publish (s : Signal)
deriving DecidableEq

/-- The component an event concerns. -/
def eventCom : Event → Com
  | .subscribe c => c
  | .publish s => sigCom s

/-- State threaded through the setup blocks: the mutable component table
`com`, the bus actions so far, and the `tasks` vector of
`(component, has-receiver)` pairs. -/
structure SetupSt where
  table : Components
  events : List Event
  tasks : List (Com × Bool)
deriving DecidableEq

/-- One component block of `install/main.rs` (lines 115-229), in the
linux build: skip-and-publish when the table says installed (Hydro only
logs and publishes nothing), adopt-and-publish when external detection
succeeds, otherwise subscribe (dependent components only) and schedule a
task.  `none` models the `version().expect(...)` panic in the Node.js and
MongoDB blocks when the stored version is `Installed` (not `Valid`). -/
def blockOf (d : Detect) (st : SetupSt) : Com → Option SetupSt
  | .Hydro =>
    if st.table.hydro.is_installed then some st
    else some { st with events := st.events ++ [.subscribe .Hydro],
                        tasks := st.tasks ++ [(.Hydro, true)] }
  | .Yarn =>
    if st.table.yarn.is_installed then
      some { st with events := st.events ++ [.publish (.Ready .Yarn st.table.yarn)] }
    else
      match d.yarn with
      | some v =>
        let info : ComponentInfo := { version := .Valid v, path := some "yarn" }
        some { st with table := { st.table with yarn := info },
                       events := st.events ++ [.publish (.Ready .Yarn info)] }
      | none =>
        some { st with events := st.events ++ [.subscribe .Yarn],
                       tasks := st.tasks ++ [(.Yarn, true)] }
  | .PM2 =>
    if st.table.pm2.is_installed then
      some { st with events := st.events ++ [.publish (.Ready .PM2 st.table.pm2)] }
    else
      match d.pm2 with
      | some v =>
        let info : ComponentInfo := { version := .Valid v, path := some "pm2" }
        some { st with table := { st.table with pm2 := info },
                       events := st.events ++ [.publish (.Ready .PM2 info)] }
      | none =>
        some { st with events := st.events ++ [.subscribe .PM2],
                       tasks := st.tasks ++ [(.PM2, true)] }
  | .NodeJS =>
    if st.table.nodejs.is_installed then
      match st.table.nodejs.version? with
      | none => none
      | some _ =>
        some { st with events := st.events ++ [.publish (.Ready .NodeJS st.table.nodejs)] }
    else
      match d.nodejs with
      | some v =>
        let info : ComponentInfo := { version := .Valid v, path := none }
        some { st with table := { st.table with nodejs := info },
                       events := st.events ++ [.publish (.Ready .NodeJS info)] }
      | none => some { st with tasks := st.tasks ++ [(.NodeJS, false)] }
  | .MongoDB =>
    if st.table.mongodb.is_installed then
      match st.table.mongodb.version? with
      | none => none
      | some _ =>
        some { st with events := st.events ++ [.publish (.Ready .MongoDB st.table.mongodb)] }
    else
      match d.mongodb with
      | some v =>
        let info : ComponentInfo := { version := .Valid v, path := some "mongod" }
        some { st with table := { st.table with mongodb := info },
                       events := st.events ++ [.publish (.Ready .MongoDB info)] }
      | none => some { st with tasks := st.tasks ++ [(.MongoDB, false)] }
  | .Minio =>
    if st.table.minio.is_installed then
      some { st with events := st.events ++ [.publish (.Ready .Minio st.table.minio)] }
    else if d.minio then
      let info : ComponentInfo := { version := .Installed, path := some "minio" }
      some { st with table := { st.table with minio := info },
                     events := st.events ++ [.publish (.Ready .Minio info)] }
    else some { st with tasks := st.tasks ++ [(.Minio, false)] }
  | .Sandbox =>
    if st.table.sandbox.is_installed then
      some { st with events := st.events ++ [.publish (.Ready .Sandbox st.table.sandbox)] }
    else some { st with tasks := st.tasks ++ [(.Sandbox, false)] }

/-- The source order of the setup blocks (`main.rs`: Hydro, Yarn, PM2,
Node.js, MongoDB, MinIO, sandbox). -/
def comOrder : List Com := [.Hydro, .Yarn, .PM2, .NodeJS, .MongoDB, .Minio, .Sandbox]

/-- The two-phase setup of `install/main.rs` (lines 107-234): the seven
blocks run in source order before any task is polled. -/
def setup (cfg : Components) (d : Detect) : Option SetupSt :=
  comOrder.foldlM (fun st c => blockOf d st c) ⟨cfg, [], []⟩

/-- One completion handled by the orchestrator loop (`main.rs` 236-257):
a success writes exactly that component's table entry and publishes Ready
with the written info; a failure publishes Failed and writes nothing. -/
def loopStep (st : Components × List Event) (r : Except Error (Com × ComponentInfo)) :
    Components × List Event :=
  match r with
  | .ok (c, info) =>
    let t := st.1.write_by_com c info
    (t, st.2 ++ [.publish (.Ready c (t.borrow_by_com c))])
  | .error e => (st.1, st.2 ++ [.publish (.Failed e.com)])

/-- The completion loop over the results of the scheduled tasks, in
completion order (`FuturesUnordered` yields them in arbitrary order, so
`completions` is an arbitrary list). -/
def runLoop (table : Components)
    (completions : List (Except Error (Com × ComponentInfo))) :
    Components × List Event :=
  completions.foldl loopStep (table, [])

/-- The satisfied-at-startup predicate realized by the setup blocks:
already installed per the table, or detected externally. -/
def satisfied (t : Components) (d : Detect) : Com → Bool
  | .Hydro => t.hydro.is_installed
  | .Yarn => t.yarn.is_installed || d.yarn.isSome
  | .PM2 => t.pm2.is_installed || d.pm2.isSome
  | .NodeJS => t.nodejs.is_installed || d.nodejs.isSome
  | .MongoDB => t.mongodb.is_installed || d.mongodb.isSome
  | .Minio => t.minio.is_installed || d.minio
  | .Sandbox => t.sandbox.is_installed

/-- Step of the subscription-before-publish checker: `none` means a
subscription for `A` was created after a signal for `B` had already been
published (the deadlock the spec rules out). -/
def chkStep (A B : Com) (st : Option Bool) (e : Event) : Option Bool :=
  match st with
  | none => none
  | some seen =>
    match e with
    | .subscribe c => if c = A ∧ seen then none else some seen
    | .publish s => some (seen || decide (sigCom s = B))

/-- Every subscription for `A` happens before every published signal for
`B` in the trace. -/
def subBeforePub (A B : Com) (t : List Event) : Bool :=
  (t.foldl (chkStep A B) (some false)).isSome

/-! ### Version string serialization (`config.rs` and the semver grammar) -/

/-- Characters allowed in semver prerelease/build identifiers:
ASCII alphanumerics and hyphen. -/
def isIdentChar (c : Char) : Bool := c.isAlphanum || c = '-'

/-- Decimal digit expansion with explicit fuel (kernel-reducible; agrees
with `Nat.digits`, see `natCharsAux_eq`). -/
def natCharsAux (fuel n : Nat) : List Char :=
  match fuel with
  | 0 => []
  | fuel + 1 => if n = 0 then [] else natCharsAux fuel (n / 10) ++ [Nat.digitChar (n % 10)]

/-- Decimal printing of a Nat as characters (most significant first). -/
def natChars (n : Nat) : List Char :=
  if n = 0 then ['0'] else natCharsAux n n

/-- Value of one decimal digit character. -/
def digitVal? (c : Char) : Option Nat :=
  if c.isDigit then some (c.toNat - 48) else none

/-- Parse a decimal numeral with the semver leading-zero rule (no
leading zeros unless the numeral is exactly "0"). -/
def parseNatNoZeros? (cs : List Char) : Option Nat :=
  match cs with
  | [] => none
  | _ :: _ =>
    if 1 < cs.length ∧ cs.head? = some '0' then none
    else (cs.mapM digitVal?).map (fun ds => Nat.ofDigits 10 ds.reverse)

/-- Core version numbers additionally must fit in a u64 (the semver
crate fails on overflow). -/
def parseNatCore? (cs : List Char) : Option Nat :=
  (parseNatNoZeros? cs).bind (fun n => if n < 2 ^ 64 then some n else none)

/-- Parse one prerelease identifier: nonempty, identifier characters
only; all-digit identifiers are numeric (leading zeros rejected). -/
def parsePreId? (cs : List Char) : Option PreId :=
  if cs.isEmpty then none
  else if ¬cs.all isIdentChar then none
  else if cs.all (fun c => c.isDigit) then (parseNatNoZeros? cs).map .num
  else some (.alpha cs)

/-- Parse one build identifier: nonempty, identifier characters only
(leading zeros allowed). -/
def parseBuildId? (cs : List Char) : Option (List Char) :=
  if cs.isEmpty then none
  else if cs.all isIdentChar then some cs else none

/-- Split a character list at every occurrence of `sep` (n separators
give n+1 pieces, empty pieces included). -/
def splitSep (sep : Char) : List Char → List (List Char)
  | [] => [[]]
  | x :: xs =>
    match splitSep sep xs with
    | [] => [[]]
    | h :: t => if x = sep then [] :: h :: t else (x :: h) :: t

/-- Join pieces with `sep` between them. -/
def joinSep (sep : Char) : List (List Char) → List Char
  | [] => []
  | [p] => p
  | p :: ps => p ++ sep :: joinSep sep ps

/-- Split at the first occurrence of `c`: the part before it, and the
part after it when it occurs. -/
def splitFirst (c : Char) : List Char → List Char × Option (List Char)
  | [] => ([], none)
  | x :: xs =>
    if x = c then ([], some xs)
    else
      let r := splitFirst c xs
      (x :: r.1, r.2)

/-- Characters of one prerelease identifier. -/
def preIdChars : PreId → List Char
  | .num n => natChars n
  | .alpha s => s

/-- `Display` of a semver value: `major.minor.patch`, then `-` and the
dot-joined prerelease if present, then `+` and the dot-joined build
metadata if present. -/
def semverChars (v : SemVer) : List Char :=
  natChars v.major ++ '.' :: natChars v.minor ++ '.' :: natChars v.patch
    ++ (match v.pre with
        | [] => []
        | _ => '-' :: joinSep '.' (v.pre.map preIdChars))
    ++ (match v.build with
        | [] => []
        | _ => '+' :: joinSep '.' v.build)

/-- `semver::Version::parse` over characters: build metadata after the
first `+`, prerelease after the first `-` of the remainder (the core
cannot contain `-`), and a three-part dotted numeric core. -/
def semverParse? (cs : List Char) : Option SemVer :=
  let pb := splitFirst '+' cs
  let pc := splitFirst '-' pb.1
  match splitSep '.' pc.1 with
  | [a, b, c] => do
    let major ← parseNatCore? a
    let minor ← parseNatCore? b
    let patch ← parseNatCore? c
    let pre ← match pc.2 with
      | none => some []
      | some p => (splitSep '.' p).mapM parsePreId?
    let build ← match pb.2 with
      | none => some []
      | some bd => (splitSep '.' bd).mapM parseBuildId?
    some ⟨major, minor, patch, pre, build⟩
  | _ => none

/-- `semver::Version`'s `Display`, as a string. -/
def SemVer.toStr (v : SemVer) : String := String.mk (semverChars v)

/-- `semver::Version::parse`, over a string. -/
def semverParseStr? (s : String) : Option SemVer := semverParse? s.data

/-- `config.rs`, `impl Serialize for Version` (lines 166-178): the
serialized form is a plain string. -/
def Version.serialize : Version → String
  | .Unknown => "unknown"
  | .Installed => "installed"
  | .Valid v => v.toStr
  | .Invalid x => x

/-- `config.rs`, `impl Deserialize for Version` (lines 180-195). -/
def Version.deserialize (s : String) : Version :=
  if s = "unknown" then .Unknown
  else if s = "installed" then .Installed
  else
    match semverParseStr? s with
    | some v => .Valid v
    | none => .Invalid s

/-- Well-formed prerelease identifier (what the semver crate's
validation admits): numerics are arbitrary, alphanumerics are nonempty
identifier-character strings containing a non-digit. -/
def PreId.wf : PreId → Bool
  | .num _ => true
  | .alpha s => !s.isEmpty && s.all isIdentChar && !s.all (fun c => c.isDigit)

/-- Well-formed build identifier. -/
def buildWf (s : List Char) : Bool := !s.isEmpty && s.all isIdentChar

/-- Well-formed semver value: exactly the values `semver::Version` can
hold (core numbers are u64, identifiers validated). -/
def SemVer.wf (v : SemVer) : Bool :=
  decide (v.major < 2 ^ 64) && decide (v.minor < 2 ^ 64) && decide (v.patch < 2 ^ 64) &&
    v.pre.all PreId.wf && v.build.all buildWf

/-- Concrete component table with every entry carrying a valid version
(all components satisfied at startup). -/
def allValidTable : Components :=
  let info : ComponentInfo := { version := .Valid ⟨14, 17, 3, [], []⟩, path := none }
  ⟨info, info, info, info, info, info, info⟩

/-- No external detection succeeds. -/
def noDetect : Detect := ⟨none, none, none, none, false⟩

/-- The dotted numeric core of a printed semver value. -/
def coreChars (M m p : Nat) : List Char :=
  natChars M ++ ('.' :: (natChars m ++ ('.' :: natChars p)))

namespace TestResult

theorem cmp_gt_iff (a b : TestResult) :
    cmp a b = .gt ↔ b.error < a.error ∨ (b.error = a.error ∧ rsnd b < rsnd a) := by
  rcases h : compare a.error b.error with _ | _ | _
  · have hab := Nat.compare_eq_lt.mp h
    simp only [cmp, h]
    constructor
    · intro hc; exact absurd hc (by decide)
    · intro hc; exact absurd hc (by omega)
  · have hab := Nat.compare_eq_eq.mp h
    by_cases hf : a.is_failed
    · have hf' : b.is_failed := by simp [is_failed] at hf ⊢; omega
      have h0 : rsnd a = 0 := by simp [rsnd, hf]
      have h1 : rsnd b = 0 := by simp [rsnd, hf']
      simp only [cmp, h, hf, if_true]
      constructor
      · intro hc; exact absurd hc (by decide)
      · intro hc; exact absurd hc (by omega)
    · have hf' : ¬b.is_failed := by simp [is_failed] at hf ⊢; omega
      have h0 : rsnd a = a.total / (ATTEMPT_TIMES - a.error) := by simp [rsnd, hf]
      have h1 : rsnd b = b.total / (ATTEMPT_TIMES - b.error) := by simp [rsnd, hf']
      simp only [cmp, h, hf, if_false, Bool.false_eq_true]
      rw [Nat.compare_eq_gt, ← h0, ← h1]
      omega
  · have hab := Nat.compare_eq_gt.mp h
    simp only [cmp, h]
    constructor
    · intro _; exact Or.inl hab
    · intro _; trivial

theorem cmp_eq_iff (a b : TestResult) :
    cmp a b = .eq ↔ a.error = b.error ∧ rsnd a = rsnd b := by
  rcases h : compare a.error b.error with _ | _ | _
  · have hab := Nat.compare_eq_lt.mp h
    simp only [cmp, h]
    constructor
    · intro hc; exact absurd hc (by decide)
    · intro hc; exact absurd hc.1 (by omega)
  · have hab := Nat.compare_eq_eq.mp h
    by_cases hf : a.is_failed
    · have hf' : b.is_failed := by simp [is_failed] at hf ⊢; omega
      have h0 : rsnd a = 0 := by simp [rsnd, hf]
      have h1 : rsnd b = 0 := by simp [rsnd, hf']
      simp only [cmp, h, hf, if_true]
      constructor
      · intro _; omega
      · intro _; trivial
    · have hf' : ¬b.is_failed := by simp [is_failed] at hf ⊢; omega
      have h0 : rsnd a = a.total / (ATTEMPT_TIMES - a.error) := by simp [rsnd, hf]
      have h1 : rsnd b = b.total / (ATTEMPT_TIMES - b.error) := by simp [rsnd, hf']
      simp only [cmp, h]
      rw [if_neg (by simpa using hf), Nat.compare_eq_eq, ← h0, ← h1]
      omega
  · have hab := Nat.compare_eq_gt.mp h
    simp only [cmp, h]
    constructor
    · intro hc; exact absurd hc (by decide)
    · intro hc; exact absurd hc.1 (by omega)

theorem cmp_ne_gt_iff (a b : TestResult) :
    cmp a b ≠ .gt ↔ a.error < b.error ∨ (a.error = b.error ∧ rsnd a ≤ rsnd b) := by
  have hgt := cmp_gt_iff a b
  constructor
  · intro h
    have : ¬(b.error < a.error ∨ (b.error = a.error ∧ rsnd b < rsnd a)) := fun hc => h (hgt.mpr hc)
    omega
  · intro h hc
    have := hgt.mp hc
    omega

theorem cmp_self (a : TestResult) : cmp a a = .eq := by
  rw [cmp_eq_iff]; exact ⟨rfl, rfl⟩

theorem cmp_gt_trans {a b c : TestResult} (h1 : cmp a b = .gt) (h2 : cmp b c = .gt) :
    cmp a c = .gt := by
  rw [cmp_gt_iff] at h1 h2 ⊢; omega

theorem cmp_ne_gt_trans {a b c : TestResult} (h1 : cmp a b ≠ .gt) (h2 : cmp b c ≠ .gt) :
    cmp a c ≠ .gt := by
  rw [cmp_ne_gt_iff] at h1 h2 ⊢; omega

theorem cmp_ne_gt_gt {a b c : TestResult} (h1 : cmp a b ≠ .gt) (h2 : cmp a c = .gt) :
    cmp b c = .gt := by
  rw [cmp_ne_gt_iff] at h1; rw [cmp_gt_iff] at h2 ⊢; omega

theorem cmp_gt_asymm {a b : TestResult} (h : cmp a b = .gt) : cmp b a ≠ .gt := by
  rw [cmp_gt_iff] at h; rw [cmp_ne_gt_iff]; omega


end TestResult

/-- Specification of the `min_by` fold over an index-tagged list with
strictly increasing indices: the result is an element of the candidate
set, is minimal under `TestResult.cmp`, and every candidate with a
smaller index is strictly greater (ties keep the earlier element). -/
theorem foldl_min_spec (l : List (Nat × TestResult)) :
    ∀ (a m : Nat × TestResult),
      l.foldl (fun acc y => if TestResult.cmp acc.2 y.2 = .gt then y else acc) a = m →
      l.Pairwise (fun x y => x.1 < y.1) →
      (∀ y ∈ l, a.1 < y.1) →
      (m = a ∨ m ∈ l) ∧
      TestResult.cmp m.2 a.2 ≠ .gt ∧
      (∀ y ∈ l, TestResult.cmp m.2 y.2 ≠ .gt) ∧
      (a.1 < m.1 → TestResult.cmp a.2 m.2 = .gt) ∧
      (∀ y ∈ l, y.1 < m.1 → TestResult.cmp y.2 m.2 = .gt) := by
  induction l with
  | nil =>
    intro a m hm _ _
    simp only [List.foldl_nil] at hm
    subst hm
    refine ⟨Or.inl rfl, ?_, by simp, by omega, by simp⟩
    simp [TestResult.cmp_self]
  | cons y t ih =>
    intro a m hm hpw hidx
    simp only [List.foldl_cons] at hm
    have hpw' : t.Pairwise (fun x y => x.1 < y.1) := (List.pairwise_cons.mp hpw).2
    have hyt : ∀ z ∈ t, y.1 < z.1 := (List.pairwise_cons.mp hpw).1
    by_cases hgt : TestResult.cmp a.2 y.2 = .gt
    · rw [if_pos hgt] at hm
      have hidx' : ∀ z ∈ t, y.1 < z.1 := hyt
      obtain ⟨hmem, hmin, hminall, hstrict, hstrictall⟩ := ih y m hm hpw' hidx'
      refine ⟨?_, ?_, ?_, ?_, ?_⟩
      · rcases hmem with h | h
        · exact Or.inr (h ▸ List.mem_cons_self y t)
        · exact Or.inr (List.mem_cons_of_mem y h)
      · -- m ≤ y while y < a, so m < a
        rw [TestResult.cmp_gt_iff] at hgt
        rw [TestResult.cmp_ne_gt_iff] at hmin ⊢
        omega
      · intro z hz
        rcases List.mem_cons.mp hz with h | h
        · exact h ▸ hmin
        · exact hminall z h
      · intro _
        rcases hmem with h | h
        · exact h ▸ hgt
        · exact TestResult.cmp_gt_trans hgt (hstrict (hyt m h))
      · intro z hz hzm
        rcases List.mem_cons.mp hz with h | h
        · subst h
          exact hstrict hzm
        · exact hstrictall z h hzm
    · rw [if_neg hgt] at hm
      obtain ⟨hmem, hmin, hminall, hstrict, hstrictall⟩ := ih a m hm hpw'
        (fun z hz => hidx z (List.mem_cons_of_mem y hz))
      refine ⟨?_, hmin, ?_, hstrict, ?_⟩
      · rcases hmem with h | h
        · exact Or.inl h
        · exact Or.inr (List.mem_cons_of_mem y h)
      · intro z hz
        rcases List.mem_cons.mp hz with h | h
        · subst h
          exact TestResult.cmp_ne_gt_trans hmin hgt
        · exact hminall z h
      · intro z hz hzm
        rcases List.mem_cons.mp hz with h | h
        · -- z = y: y is not smaller than a, while a beats m strictly
          rw [h] at hzm ⊢
          have ham : TestResult.cmp a.2 m.2 = .gt := hstrict (by
            have := hidx y (List.mem_cons_self y t); omega)
          exact TestResult.cmp_ne_gt_gt hgt ham
        · exact hstrictall z h hzm

theorem score_foldl (attempts : List (Option Nat)) :
    ∀ r0 : TestResult,
      attempts.foldl
        (fun r o =>
          match o with
          | some t => { r with total := r.total + t }
          | none => { r with error := r.error + 1 }) r0 =
      ⟨r0.error + attempts.countP (fun o => o.isNone),
        r0.total + (attempts.filterMap id).sum⟩ := by
  induction attempts with
  | nil => intro r0; simp
  | cons o t ih =>
    intro r0
    cases o with
    | some v =>
      simp only [List.foldl_cons, List.countP_cons, List.filterMap_cons, ih]
      simp [Nat.add_comm, Nat.add_assoc, Nat.add_left_comm]
    | none =>
      simp only [List.foldl_cons, List.countP_cons, List.filterMap_cons, ih]
      simp
      omega

theorem score_eq (attempts : List (Option Nat)) :
    score attempts =
      ⟨attempts.countP (fun o => o.isNone), (attempts.filterMap id).sum⟩ := by
  simpa using score_foldl attempts ⟨0, 0⟩

theorem mem_enum_get? {l : List TestResult} {i : Nat} {r : TestResult}
    (h : (i, r) ∈ l.enum) : l.get? i = some r := by
  obtain ⟨n, hn⟩ := List.mem_iff_get?.mp h
  rw [List.get?_enum] at hn
  obtain ⟨a, ha, hpair⟩ := Option.map_eq_some'.mp hn
  obtain ⟨rfl, rfl⟩ : n = i ∧ a = r := by
    constructor <;> [exact congrArg Prod.fst hpair; exact congrArg Prod.snd hpair]
  exact ha

theorem get?_mem_enum {l : List TestResult} {i : Nat} {r : TestResult}
    (h : l.get? i = some r) : (i, r) ∈ l.enum := by
  have : l.enum.get? i = some (i, r) := by rw [List.get?_enum, h]; rfl
  exact List.get?_mem this

/-- `min_by` over the enumerated score list: the winner is a real entry,
is minimal, and strictly beats every entry at a smaller index. -/
theorem minBy_enum_spec (results : List TestResult) (i : Nat) (r : TestResult)
    (h : minBy (fun a b => TestResult.cmp a.2 b.2) results.enum = some (i, r)) :
    results.get? i = some r ∧
    (∀ r' ∈ results, TestResult.cmp r r' ≠ .gt) ∧
    (∀ j r', results.get? j = some r' → j < i → TestResult.cmp r' r = .gt) := by
  have hpw : results.enum.Pairwise (fun p q => p.1 < q.1) := by
    have h1 : (results.enum.map Prod.fst).Pairwise (· < ·) := by
      rw [List.enum_map_fst]; exact List.pairwise_lt_range _
    rwa [List.pairwise_map] at h1
  cases henum : results.enum with
  | nil => rw [henum] at h; simp [minBy] at h
  | cons x xs =>
    rw [henum] at h hpw
    simp only [minBy] at h
    have hspec := foldl_min_spec xs x (i, r) (Option.some.inj h)
      (List.pairwise_cons.mp hpw).2 (List.pairwise_cons.mp hpw).1
    obtain ⟨hmem, hminx, hminxs, hstrictx, hstrictxs⟩ := hspec
    have hmem' : (i, r) ∈ results.enum := by
      rw [henum]
      rcases hmem with hh | hh
      · exact hh ▸ List.mem_cons_self x xs
      · exact List.mem_cons_of_mem x hh
    refine ⟨mem_enum_get? hmem', ?_, ?_⟩
    · intro r' hr'
      obtain ⟨j, hj⟩ := List.mem_iff_get?.mp hr'
      have : (j, r') ∈ results.enum := get?_mem_enum hj
      rw [henum] at this
      rcases List.mem_cons.mp this with hh | hh
      · have hx2 : r' = x.2 := congrArg Prod.snd hh
        rw [hx2]; exact hminx
      · exact hminxs (j, r') hh
    · intro j r' hj hji
      have : (j, r') ∈ results.enum := get?_mem_enum hj
      rw [henum] at this
      rcases List.mem_cons.mp this with hh | hh
      · have hx1 : x.1 = j := congrArg Prod.fst hh.symm
        have hx2 : x.2 = r' := congrArg Prod.snd hh.symm
        have hstep := hstrictx (by rw [hx1]; exact hji)
        rw [hx2] at hstep
        exact hstep
      · exact hstrictxs (j, r') hh hji

/-- C2: `determine_mirror` aggregates each candidate's 5 probe attempts
into a `TestResult` (failed-attempt count, summed successful latency),
and returns a candidate whose score is minimal under the order
"errorCount ascending, ties by average ascending" (`TestResult.cmp`);
on the spec's 3-candidate example it returns the third candidate. -/
theorem mirror_ranking_c2 :
    (∀ attempts : List (Option Nat),
        (score attempts).error = attempts.countP (fun o => o.isNone) ∧
        (score attempts).total = (attempts.filterMap id).sum) ∧
    (∀ (mirrors : List String) (probes : List (List (Option Nat))) (m : String),
        determine_mirror mirrors probes = some m →
        ∃ i r, (probes.map score).get? i = some r ∧ mirrors.get? i = some m ∧
          r.is_failed = false ∧
          ∀ r' ∈ probes.map score, TestResult.cmp r r' ≠ .gt) ∧
    determine_mirror ["m1", "m2", "m3"]
        [[none, none, none, none, none],
         [none, some 100, some 100, some 100, some 100],
         [some 200, some 200, some 200, some 200, some 200]] = some "m3" := by
  refine ⟨?_, ?_, by decide⟩
  · intro attempts
    rw [score_eq]
    exact ⟨rfl, rfl⟩
  · intro mirrors probes m h
    simp only [determine_mirror] at h
    cases hmin : minBy (fun a b => TestResult.cmp a.2 b.2) (probes.map score).enum with
    | none => rw [hmin] at h; cases h
    | some p =>
      obtain ⟨i, r⟩ := p
      rw [hmin] at h
      simp only [Option.some_bind] at h
      by_cases hf : r.is_failed
      · rw [if_pos hf] at h; cases h
      · rw [if_neg hf] at h
        obtain ⟨hget, hmin', _⟩ := minBy_enum_spec (probes.map score) i r hmin
        exact ⟨i, r, hget, h, by simpa using hf, hmin'⟩

/-- C6: the average of a score is computed only behind the failed check;
the aggregation phase keeps `error` at most the number of attempts, and
for any two scores within the attempt bound the panic-instrumented
comparison `cmp?` never panics (it agrees with the total `cmp`), so a
fully-failed candidate's average is never evaluated during comparison or
selection. -/
theorem mirror_division_safety_c6 :
    (∀ attempts : List (Option Nat), (score attempts).error ≤ attempts.length) ∧
    (∀ a b : TestResult, a.error ≤ TestResult.ATTEMPT_TIMES →
      b.error ≤ TestResult.ATTEMPT_TIMES →
      TestResult.cmp? a b = some (TestResult.cmp a b)) := by
  constructor
  · intro attempts
    rw [score_eq]
    exact List.countP_le_length _
  · intro a b ha hb
    rcases h : compare a.error b.error with _ | _ | _
    · simp [TestResult.cmp?, TestResult.cmp, h]
    · have hab := Nat.compare_eq_eq.mp h
      by_cases hf : a.is_failed
      · simp [TestResult.cmp?, TestResult.cmp, h, hf]
      · have hfa : a.error ≠ 5 := by
          simpa [TestResult.is_failed, TestResult.ATTEMPT_TIMES] using hf
        have ha' : a.error ≤ 5 := ha
        have ha5 : ¬TestResult.ATTEMPT_TIMES ≤ a.error := by
          simp only [TestResult.ATTEMPT_TIMES]; omega
        have hb5 : ¬TestResult.ATTEMPT_TIMES ≤ b.error := by
          simp only [TestResult.ATTEMPT_TIMES]; omega
        simp [TestResult.cmp?, TestResult.cmp, h, hf, TestResult.average?, ha5, hb5]
    · simp [TestResult.cmp?, TestResult.cmp, h]

theorem mirror_division_safety_c6_witness :
    (score [none, none, none, none, none]).error ≤
      ([none, none, none, none, none] : List (Option Nat)).length ∧
    TestResult.cmp? ⟨5, 0⟩ ⟨3, 700⟩ = some (TestResult.cmp ⟨5, 0⟩ ⟨3, 700⟩) :=
  ⟨mirror_division_safety_c6.1 [none, none, none, none, none],
    mirror_division_safety_c6.2 ⟨5, 0⟩ ⟨3, 700⟩ (by decide) (by decide)⟩

/-- C7: `determine_mirror` returns `none` exactly when the winner of the
`min_by` ranking is failed (given at least one candidate and one probe
list per candidate); with every candidate at 5/5 failures it returns
`none` (see the witness). -/
theorem mirror_no_source_c7 (mirrors : List String) (probes : List (List (Option Nat)))
    (hlen : probes.length = mirrors.length)
    (i : Nat) (r : TestResult)
    (hmin : minBy (fun a b => TestResult.cmp a.2 b.2) (probes.map score).enum =
      some (i, r)) :
    determine_mirror mirrors probes = none ↔ r.is_failed = true := by
  simp only [determine_mirror]
  rw [hmin]
  simp only [Option.some_bind]
  by_cases hf : r.is_failed
  · simp [hf]
  · rw [if_neg hf]
    obtain ⟨hget, _, _⟩ := minBy_enum_spec (probes.map score) i r hmin
    have hi : i < probes.length := by
      have h1 : ¬(probes.map score).length ≤ i := by
        intro hc
        rw [List.get?_eq_none.mpr hc] at hget
        cases hget
      simpa using h1
    have hmir : mirrors.get? i ≠ none := by
      rw [Ne, List.get?_eq_none]
      omega
    constructor
    · intro hc; exact absurd hc hmir
    · intro hc; simp at hf; rw [hf] at hc; cases hc

theorem mirror_no_source_c7_witness :
    determine_mirror ["a", "b"]
      [[none, none, none, none, none], [none, none, none, none, none]] = none := by
  have h := mirror_no_source_c7 ["a", "b"]
    [[none, none, none, none, none], [none, none, none, none, none]]
    (by decide) 0 ⟨5, 0⟩ (by decide)
  exact h.mpr (by decide)

/-- C9 as stated is false: for two candidates that tie because both are
fully failed, `determine_mirror` returns `none`, not the first candidate
of the input order. -/
theorem mirror_tie_c9_counterexample :
    TestResult.cmp (score [none, none, none, none, none])
        (score [none, none, none, none, none]) = .eq ∧
    determine_mirror ["a", "b"]
      [[none, none, none, none, none], [none, none, none, none, none]] = none ∧
    determine_mirror ["a", "b"]
      [[none, none, none, none, none], [none, none, none, none, none]] ≠ some "a" := by
  decide

/-- C9 amended: among tied candidates the `min_by` selection picks the one
first encountered in input order; `determine_mirror` returns that first
candidate when it is not fully failed, and `none` when the tied winner is
fully failed.  The concrete conjunct: two candidates with equal error
count and equal average yield the first. -/
theorem mirror_tie_c9_amended :
    (∀ (mirrors : List String) (probes : List (List (Option Nat)))
        (i : Nat) (r : TestResult),
      minBy (fun a b => TestResult.cmp a.2 b.2) (probes.map score).enum =
        some (i, r) →
      (∀ j r', (probes.map score).get? j = some r' → j < i →
        TestResult.cmp r' r = .gt) ∧
      (r.is_failed = false → determine_mirror mirrors probes = mirrors.get? i) ∧
      (r.is_failed = true → determine_mirror mirrors probes = none)) ∧
    determine_mirror ["a", "b"]
      [[some 100, some 100, some 100, some 100, some 100],
       [some 100, some 100, some 100, some 100, some 100]] = some "a" := by
  refine ⟨?_, by decide⟩
  intro mirrors probes i r hmin
  obtain ⟨_, _, hstrict⟩ := minBy_enum_spec (probes.map score) i r hmin
  refine ⟨hstrict, ?_, ?_⟩
  · intro hf
    simp only [determine_mirror]
    rw [hmin]
    simp [hf]
  · intro hf
    simp only [determine_mirror]
    rw [hmin]
    simp [hf]

theorem mirror_tie_c9_witness :
    determine_mirror ["a", "b"]
      [[some 100, some 100, some 100, some 100, some 100],
       [some 100, some 100, some 100, some 100, some 100]] =
      (["a", "b"] : List String).get? 0 := by
  have h := mirror_tie_c9_amended.1 ["a", "b"]
    [[some 100, some 100, some 100, some 100, some 100],
     [some 100, some 100, some 100, some 100, some 100]] 0 ⟨0, 500⟩ (by decide)
  exact h.2.1 (by decide)

theorem mirror_ranking_c2_witness :
    ∃ i r, ((([[none, none, none, none, none],
         [none, some 100, some 100, some 100, some 100],
         [some 200, some 200, some 200, some 200, some 200]] :
          List (List (Option Nat))).map score).get? i = some r) ∧
      (["m1", "m2", "m3"] : List String).get? i = some "m3" ∧
      r.is_failed = false ∧
      ∀ r' ∈ ([[none, none, none, none, none],
         [none, some 100, some 100, some 100, some 100],
         [some 200, some 200, some 200, some 200, some 200]] :
          List (List (Option Nat))).map score, TestResult.cmp r r' ≠ .gt :=
  mirror_ranking_c2.2.1 ["m1", "m2", "m3"]
    [[none, none, none, none, none],
     [none, some 100, some 100, some 100, some 100],
     [some 200, some 200, some 200, some 200, some 200]] "m3" (by decide)

/-! ### Agreement of the wait loop with the spec-side wait -/

theorem findIdx?_split {α : Type} {p : α → Bool} :
    ∀ {l : List α} {i : Nat}, l.findIdx? p = some i →
      ∃ l1 x l2, l = l1 ++ x :: l2 ∧ l1.length = i ∧ p x = true ∧
        ∀ y ∈ l1, p y = false := by
  intro l
  induction l with
  | nil => intro i h; simp [List.findIdx?] at h
  | cons a t ih =>
    intro i h
    rw [List.findIdx?_cons] at h
    by_cases hp : p a
    · rw [if_pos hp] at h
      obtain rfl : (0 : Nat) = i := Option.some.inj h
      exact ⟨[], a, t, rfl, rfl, hp, by simp⟩
    · rw [if_neg hp, List.findIdx?_succ] at h
      obtain ⟨j, hj, rfl⟩ := Option.map_eq_some'.mp h
      obtain ⟨l1, x, l2, rfl, rfl, hx, hl1⟩ := ih hj
      refine ⟨a :: l1, x, l2, rfl, by simp, hx, ?_⟩
      intro y hy
      rcases List.mem_cons.mp hy with rfl | hy'
      · simpa using hp
      · exact hl1 y hy'

theorem set_append_length {α : Type} :
    ∀ (l1 : List α) (x z : α) (l2 : List α),
      (l1 ++ x :: l2).set l1.length z = l1 ++ z :: l2 := by
  intro l1
  induction l1 with
  | nil => intro x z l2; rfl
  | cons a t ih => intro x z l2; simp [List.set, ih]

theorem swapRemove_perm (l1 : List Com) (x : Com) (l2 : List Com) :
    (swapRemove (l1 ++ x :: l2) l1.length).Perm (l1 ++ l2) := by
  rcases List.eq_nil_or_concat l2 with rfl | ⟨l2', z, rfl⟩
  · unfold swapRemove
    rw [List.getLast?_concat]
    simp only [Option.getD_some]
    rw [set_append_length, List.dropLast_concat]
    simp
  · unfold swapRemove
    simp only [List.concat_eq_append]
    have hassoc : l1 ++ x :: (l2' ++ [z]) = (l1 ++ x :: l2') ++ [z] := by simp
    rw [hassoc, List.getLast?_concat]
    simp only [Option.getD_some]
    rw [← hassoc, set_append_length]
    have hassoc2 : l1 ++ z :: (l2' ++ [z]) = (l1 ++ z :: l2') ++ [z] := by simp
    rw [hassoc2, List.dropLast_concat]
    exact List.Perm.append_left l1 (@List.perm_append_comm _ [z] l2')

theorem filter_update_eq_erase (c : Com) (seen : Com → Option ComponentInfo)
    (info : ComponentInfo) :
    ∀ (required : List Com), required.Nodup →
      required.filter (fun d => (if d = c then some info else seen d).isNone)
        = (required.filter (fun d => (seen d).isNone)).erase c := by
  intro required
  induction required with
  | nil => simp
  | cons a t ih =>
    intro hnd
    obtain ⟨hat, hndt⟩ := List.nodup_cons.mp hnd
    by_cases hac : a = c
    · subst hac
      have hLHS : t.filter (fun d => (if d = a then some info else seen d).isNone)
          = t.filter (fun d => (seen d).isNone) := by
        apply List.filter_congr
        intro d hd
        rw [if_neg (show d ≠ a from fun hdc => hat (hdc ▸ hd))]
      have her : (t.filter (fun d => (seen d).isNone)).erase a
          = t.filter (fun d => (seen d).isNone) :=
        List.erase_of_not_mem (fun hmem => hat (List.mem_of_mem_filter hmem))
      by_cases hsa : ((seen a).isNone : Bool)
      · simp [List.filter_cons, hLHS, hsa, List.erase_cons_head]
      · simp [List.filter_cons, hLHS, hsa, her]
    · simp only [List.filter_cons, if_neg hac]
      by_cases hsa : ((seen a).isNone : Bool)
      · rw [if_pos hsa, if_pos hsa, List.erase_cons_tail (by simpa using hac), ih hndt]
      · rw [if_neg hsa, if_neg hsa, ih hndt]

theorem res_update (c : Com) (seen : Com → Option ComponentInfo) (info : ComponentInfo) :
    ∀ (required : List Com), required.Nodup → c ∈ required → (seen c).isNone →
      ∃ p, (resOf required seen).findIdx?
          (fun x => match x with | .inl y => y = c | .inr _ => false) = some p ∧
        (resOf required seen).set p (.inr info)
          = resOf required (fun x => if x = c then some info else seen x) := by
  intro required
  induction required with
  | nil => intro _ h; simp at h
  | cons a t ih =>
    intro hnd hc hcn
    obtain ⟨hat, hndt⟩ := List.nodup_cons.mp hnd
    by_cases hac : a = c
    · subst hac
      have hsa : seen a = none := Option.isNone_iff_eq_none.mp hcn
      refine ⟨0, ?_, ?_⟩
      · simp [resOf, List.findIdx?_cons, hsa]
      · have hmap : t.map (fun d =>
            match (if d = a then some info else seen d) with
            | some i => (Sum.inr i : Sum Com ComponentInfo)
            | none => Sum.inl d) = t.map (fun d =>
            match seen d with
            | some i => Sum.inr i
            | none => Sum.inl d) := by
          apply List.map_eq_map_iff.mpr
          intro d hd
          rw [if_neg (show d ≠ a from fun hdc => hat (hdc ▸ hd))]
        simp only [resOf, List.map_cons, hsa, List.set_cons_zero, hmap]
        simp
    · have hct : c ∈ t := by
        rcases List.mem_cons.mp hc with h | h
        · exact absurd h.symm hac
        · exact h
      obtain ⟨p, hfind, hset⟩ := ih hndt hct hcn
      refine ⟨p + 1, ?_, ?_⟩
      · cases hsa : seen a with
        | some j =>
          simp only [resOf, List.map_cons, hsa, List.findIdx?_cons]
          rw [if_neg (by simp), List.findIdx?_succ]
          simp only [resOf] at hfind
          rw [hfind]
          rfl
        | none =>
          simp only [resOf, List.map_cons, hsa, List.findIdx?_cons]
          rw [if_neg (by simp [hac]), List.findIdx?_succ]
          simp only [resOf] at hfind
          rw [hfind]
          rfl
      · simp only [resOf, List.map_cons, List.set_cons_succ] at hset ⊢
        rw [if_neg hac, hset]

theorem rightsAll_resOf (seen : Com → Option ComponentInfo) :
    ∀ (required : List Com), (∀ d ∈ required, (seen d).isSome) →
      rightsAll (resOf required seen) = some (required.filterMap seen) := by
  intro required
  induction required with
  | nil => intro _; simp [resOf, rightsAll]
  | cons a t ih =>
    intro hall
    obtain ⟨i, hi⟩ := Option.isSome_iff_exists.mp (hall a (List.mem_cons_self a t))
    simp only [resOf, List.map_cons, hi, List.filterMap_cons]
    rw [show (rightsAll (Sum.inr i :: t.map _)) = (rightsAll (resOf t seen)).map (i :: ·)
      from rfl]
    rw [ih (fun d hd => hall d (List.mem_cons_of_mem a hd))]
    rfl

theorem wfcLoop_agree (self : Com) (required : List Com) (hnd : required.Nodup) :
    ∀ (sigs : List Signal) (seen : Com → Option ComponentInfo) (coms : List Com),
      coms.Perm (required.filter (fun d => (seen d).isNone)) →
      (wfcLoop self coms (resOf required seen) sigs).map rightsAll =
        ((specGo required seen sigs).map some).mapError (AwaitErr.toError self) := by
  intro sigs
  induction sigs with
  | nil =>
    intro seen coms hperm
    by_cases hall : required.all (fun d => (seen d).isSome)
    · have hall' : ∀ d ∈ required, (seen d).isSome := List.all_eq_true.mp hall
      have hfilter : required.filter (fun d => (seen d).isNone) = [] := by
        rw [List.filter_eq_nil_iff]
        intro d hd
        cases hseen : seen d with
        | none => have h1 := hall' d hd; rw [hseen] at h1; cases h1
        | some v => simp [hseen]
      have hcoms : coms = [] := List.perm_nil.mp (hfilter ▸ hperm)
      subst hcoms
      unfold wfcLoop specGo
      simp [hall, Except.map, Except.mapError, rightsAll_resOf seen required hall']
    · have hne : required.filter (fun d => (seen d).isNone) ≠ [] := by
        intro hc
        apply hall
        rw [List.all_eq_true]
        intro d hd
        have := List.filter_eq_nil_iff.mp hc d hd
        cases hseen : seen d with
        | none => rw [hseen] at this; simp at this
        | some v => rfl
      have hcoms_ne : coms ≠ [] := fun hc => hne (List.perm_nil.mp (hc ▸ hperm).symm)
      have hcoms_empty : coms.isEmpty = false := by
        cases coms with
        | nil => exact absurd rfl hcoms_ne
        | cons a t => rfl
      unfold wfcLoop specGo
      simp [hall, hcoms_empty, Except.map, Except.mapError, AwaitErr.toError]
  | cons s rest ih =>
    intro seen coms hperm
    by_cases hall : required.all (fun d => (seen d).isSome)
    · have hall' : ∀ d ∈ required, (seen d).isSome := List.all_eq_true.mp hall
      have hfilter : required.filter (fun d => (seen d).isNone) = [] := by
        rw [List.filter_eq_nil_iff]
        intro d hd
        cases hseen : seen d with
        | none => have h1 := hall' d hd; rw [hseen] at h1; cases h1
        | some v => simp [hseen]
      have hcoms : coms = [] := List.perm_nil.mp (hfilter ▸ hperm)
      subst hcoms
      unfold wfcLoop specGo
      simp [hall, Except.map, Except.mapError, rightsAll_resOf seen required hall']
    · have hcoms_ne : coms ≠ [] := by
        intro hc
        apply hall
        rw [List.all_eq_true]
        intro d hd
        have hfil : required.filter (fun d => (seen d).isNone) = [] :=
          List.perm_nil.mp (hc ▸ hperm).symm
        have := List.filter_eq_nil_iff.mp hfil d hd
        cases hseen : seen d with
        | none => rw [hseen] at this; simp at this
        | some v => rfl
      have hcoms_empty : coms.isEmpty = false := by
        cases coms with
        | nil => exact absurd rfl hcoms_ne
        | cons a t => rfl
      have hallf : (required.all fun d => (seen d).isSome) = false := by
        simpa using hall
      cases s with
      | Ready c info =>
        by_cases hcin : c ∈ required ∧ (seen c).isNone
        · have hcmem : c ∈ coms :=
            hperm.mem_iff.mpr (List.mem_filter.mpr ⟨hcin.1, by simp [hcin.2]⟩)
          cases hfind : coms.findIdx? (· = c) with
          | none =>
            exfalso
            have := List.findIdx?_eq_none_iff.mp hfind c hcmem
            simp at this
          | some pos =>
            obtain ⟨l1, x, l2, hsplit, hlen, hx, hl1⟩ := findIdx?_split hfind
            have hxc : x = c := by simpa using hx
            rw [hxc] at hsplit
            obtain ⟨p, hfindres, hset⟩ :=
              res_update c seen info required hnd hcin.1 hcin.2
            have hpermmid : coms.Perm (c :: (l1 ++ l2)) := hsplit ▸ List.perm_middle
            have hcfil : c ∈ required.filter (fun d => (seen d).isNone) :=
              List.mem_filter.mpr ⟨hcin.1, by simp [hcin.2]⟩
            have hperm' : (swapRemove coms pos).Perm
                (required.filter (fun d =>
                  (if d = c then some info else seen d).isNone)) := by
              rw [filter_update_eq_erase c seen info required hnd]
              have h1 : (swapRemove coms pos).Perm (l1 ++ l2) := by
                rw [hsplit, ← hlen]
                exact swapRemove_perm l1 c l2
              have h2 : (required.filter (fun d => (seen d).isNone)).Perm
                  (c :: (required.filter (fun d => (seen d).isNone)).erase c) :=
                List.perm_cons_erase hcfil
              have h3 : (c :: (l1 ++ l2)).Perm
                  (c :: (required.filter (fun d => (seen d).isNone)).erase c) :=
                (hpermmid.symm.trans hperm).trans h2
              exact h1.trans h3.cons_inv
            have hstep := ih (fun x => if x = c then some info else seen x)
              (swapRemove coms pos) hperm'
            unfold wfcLoop specGo
            rw [hallf]
            simp only [hcoms_empty, Bool.false_eq_true, if_false, hfind, hfindres, hset,
              if_pos hcin]
            exact hstep
        · have hcnot : c ∉ coms := by
            intro hc
            exact hcin (by
              have := List.mem_filter.mp (hperm.mem_iff.mp hc)
              exact ⟨this.1, by simpa using this.2⟩)
          have hfind : coms.findIdx? (· = c) = none := by
            rw [List.findIdx?_eq_none_iff]
            intro x hx
            simp only [decide_eq_false_iff_not]
            exact fun hxc => hcnot (hxc ▸ hx)
          have hstep := ih seen coms hperm
          unfold wfcLoop specGo
          rw [hallf]
          simp only [hcoms_empty, Bool.false_eq_true, if_false, hfind, if_neg hcin]
          exact hstep
      | Failed c =>
        by_cases hcin : c ∈ required ∧ (seen c).isNone
        · have hcmem : c ∈ coms :=
            hperm.mem_iff.mpr (List.mem_filter.mpr ⟨hcin.1, by simp [hcin.2]⟩)
          have hIs : (coms.findIdx? (· = c)).isSome = true := by
            cases hfind : coms.findIdx? (· = c) with
            | none =>
              exfalso
              have := List.findIdx?_eq_none_iff.mp hfind c hcmem
              simp at this
            | some pos => rfl
          unfold wfcLoop specGo
          rw [hallf]
          simp only [hcoms_empty, Bool.false_eq_true, if_false, hIs, eq_self_iff_true,
            if_true, if_pos hcin]
          rfl
        · have hcnot : c ∉ coms := by
            intro hc
            exact hcin (by
              have := List.mem_filter.mp (hperm.mem_iff.mp hc)
              exact ⟨this.1, by simpa using this.2⟩)
          have hfind : coms.findIdx? (· = c) = none := by
            rw [List.findIdx?_eq_none_iff]
            intro x hx
            simp only [decide_eq_false_iff_not]
            exact fun hxc => hcnot (hxc ▸ hx)
          have hstep := ih seen coms hperm
          unfold wfcLoop specGo
          rw [hallf]
          simp only [hcoms_empty, Bool.false_eq_true, if_false, hfind, Option.isSome_none,
            if_neg hcin]
          exact hstep

/-- The dependency wait agrees with the spec-side wait: same outcome,
the implementation's `unwrap`s never fire, and errors map to `RecvError` /
`DependencyError` on the waiting component. -/
theorem wfc_agree (self : Com) (required : List Com) (hnd : required.Nodup)
    (sigs : List Signal) :
    wait_for_components self required sigs =
      ((specAwaitAll required sigs).map some).mapError (AwaitErr.toError self) := by
  have h := wfcLoop_agree self required hnd sigs (fun _ => none) required (by simp)
  have hres : resOf required (fun _ => none) = required.map .inl := by
    simp [resOf]
  rw [hres] at h
  exact h

/-! ### Claims C4 and C5 -/

theorem specGo_all (required : List Com) (seen : Com → Option ComponentInfo)
    (hall : required.all (fun d => (seen d).isSome)) :
    ∀ sigs, specGo required seen sigs = .ok (required.filterMap seen) := by
  intro sigs
  cases sigs <;> simp [specGo, hall]

theorem specAwaitAll_discard (required : List Com) (s : Signal) (rest : List Signal)
    (hs : sigCom s ∉ required) :
    specAwaitAll required (s :: rest) = specAwaitAll required rest := by
  unfold specAwaitAll
  by_cases hall : required.all (fun d => ((fun _ : Com => (none : Option ComponentInfo)) d).isSome)
  · rw [specGo_all _ _ hall, specGo_all _ _ hall]
  · cases s with
    | Ready c info =>
      have hc : ¬(c ∈ required ∧ ((fun _ : Com => (none : Option ComponentInfo)) c).isNone) :=
        fun hin => hs hin.1
      conv_lhs => rw [specGo]
      rw [if_neg hall, if_neg hc]
    | Failed c =>
      have hc : ¬(c ∈ required ∧ ((fun _ : Com => (none : Option ComponentInfo)) c).isNone) :=
        fun hin => hs hin.1
      conv_lhs => rw [specGo]
      rw [if_neg hall, if_neg hc]

/-- C4: the dependency wait refines the spec-side `awaitAll`: same
success value (infos in the order of `required`), a Failed signal for an
outstanding id turns into `DependencyError(thatId)`, an exhausted
subscription into the distinct bus-closed (`RecvError`) error, the
implementation's unwraps never fire; and a signal whose id is not in the
required set is discarded without effect. -/
theorem await_refinement_c4 (self : Com) (required : List Com) (hnd : required.Nodup)
    (sigs : List Signal) :
    wait_for_components self required sigs =
      ((specAwaitAll required sigs).map some).mapError (AwaitErr.toError self) ∧
    (∀ (s : Signal) (rest : List Signal), sigCom s ∉ required →
      specAwaitAll required (s :: rest) = specAwaitAll required rest) :=
  ⟨wfc_agree self required hnd sigs,
    fun s rest hs => specAwaitAll_discard required s rest hs⟩

theorem await_refinement_c4_witness :
    wait_for_components Com.Hydro [Com.NodeJS, Com.Yarn]
        [Signal.Ready Com.NodeJS ⟨Version.Installed, none⟩,
         Signal.Failed Com.Minio,
         Signal.Ready Com.Yarn ⟨Version.Unknown, some "p"⟩] =
      ((specAwaitAll [Com.NodeJS, Com.Yarn]
        [Signal.Ready Com.NodeJS ⟨Version.Installed, none⟩,
         Signal.Failed Com.Minio,
         Signal.Ready Com.Yarn ⟨Version.Unknown, some "p"⟩]).map some).mapError
        (AwaitErr.toError Com.Hydro) :=
  (await_refinement_c4 Com.Hydro [Com.NodeJS, Com.Yarn] (by decide) _).1

theorem runLoop_events :
    ∀ (cs : List (Except Error (Com × ComponentInfo))) (t : Components) (evs : List Event),
      ((cs.foldl loopStep (t, evs)).2.length = evs.length + cs.length ∧
        ∀ e ∈ (cs.foldl loopStep (t, evs)).2, e ∈ evs ∨ ∃ s, e = .publish s) := by
  intro cs
  induction cs with
  | nil => intro t evs; exact ⟨by simp, fun e he => Or.inl he⟩
  | cons r rest ih =>
    intro t evs
    cases r with
    | ok p =>
      obtain ⟨c, info⟩ := p
      have h := ih (t.write_by_com c info)
        (evs ++ [.publish (.Ready c ((t.write_by_com c info).borrow_by_com c))])
      simp only [List.foldl_cons, loopStep] at h ⊢
      refine ⟨by rw [h.1]; simp; omega, ?_⟩
      intro e he
      rcases h.2 e he with hin | hpub
      · rcases List.mem_append.mp hin with h1 | h1
        · exact Or.inl h1
        · exact Or.inr ⟨_, List.mem_singleton.mp h1⟩
      · exact Or.inr hpub
    | error err =>
      have h := ih t (evs ++ [.publish (.Failed err.com)])
      simp only [List.foldl_cons, loopStep] at h ⊢
      refine ⟨by rw [h.1]; simp; omega, ?_⟩
      intro e he
      rcases h.2 e he with hin | hpub
      · rcases List.mem_append.mp hin with h1 | h1
        · exact Or.inl h1
        · exact Or.inr ⟨_, List.mem_singleton.mp h1⟩
      · exact Or.inr hpub

/-- C5: a dependent's body never runs once a required dependency has
failed — the task instead fails with `DependencyError` of that
dependency; the body runs only when the wait succeeded, which requires a
Ready for every required id; on the concrete chain, a Failed(Node.js)
signal makes Yarn and Hydro fail with `DependencyError(Node.js)` with
their bodies never invoked; and the completion loop keeps processing
every remaining completion (one published outcome per completion). -/
theorem chain_short_circuit_c5 :
    (∀ (B : Bodies) (c : Com) (sigs : List Signal) (d : Com),
      c = .Yarn ∨ c = .PM2 ∨ c = .Hydro →
      specAwaitAll (depsOf c) sigs = .error (.depError d) →
      install B c (some sigs) = some (.error ⟨c, .DependencyError d⟩, false)) ∧
    (∀ (B : Bodies) (c : Com) (sigs : List Signal)
        (r : Except Error (Com × ComponentInfo)),
      c = .Yarn ∨ c = .PM2 ∨ c = .Hydro →
      install B c (some sigs) = some (r, true) →
      ∃ infos, specAwaitAll (depsOf c) sigs = .ok infos) ∧
    (∀ B : Bodies, install B .Yarn (some [.Failed .NodeJS]) =
      some (.error ⟨.Yarn, .DependencyError .NodeJS⟩, false)) ∧
    (∀ B : Bodies, install B .Hydro (some [.Failed .NodeJS]) =
      some (.error ⟨.Hydro, .DependencyError .NodeJS⟩, false)) ∧
    (∀ (table : Components) (cs : List (Except Error (Com × ComponentInfo))),
      (runLoop table cs).2.length = cs.length) := by
  have hwait : ∀ (c : Com) (sigs : List Signal), c = .Yarn ∨ c = .PM2 ∨ c = .Hydro →
      wait_for_components c (depsOf c) sigs =
        ((specAwaitAll (depsOf c) sigs).map some).mapError (AwaitErr.toError c) := by
    intro c sigs hc
    rcases hc with rfl | rfl | rfl <;> exact wfc_agree _ _ (by decide) sigs
  refine ⟨?_, ?_, ?_, ?_, ?_⟩
  · intro B c sigs d hc herr
    have hw := hwait c sigs hc
    rw [herr] at hw
    rcases hc with rfl | rfl | rfl <;>
      simp only [install, depsOf] at hw ⊢ <;>
      rw [hw] <;> rfl
  · intro B c sigs r hc hinst
    have hw := hwait c sigs hc
    cases hspec : specAwaitAll (depsOf c) sigs with
    | error e =>
      exfalso
      rw [hspec] at hw
      rcases hc with rfl | rfl | rfl <;>
        · simp only [install, depsOf] at hw hinst
          rw [hw] at hinst
          simp [Except.map, Except.mapError] at hinst
    | ok infos => exact ⟨infos, rfl⟩
  · intro B
    have hw := hwait .Yarn [.Failed .NodeJS] (Or.inl rfl)
    have hspec : specAwaitAll (depsOf .Yarn) [.Failed .NodeJS] =
        .error (.depError .NodeJS) := rfl
    rw [hspec] at hw
    simp only [install, depsOf] at hw ⊢
    rw [hw]
    rfl
  · intro B
    have hw := hwait .Hydro [.Failed .NodeJS] (Or.inr (Or.inr rfl))
    have hspec : specAwaitAll (depsOf .Hydro) [.Failed .NodeJS] =
        .error (.depError .NodeJS) := rfl
    rw [hspec] at hw
    simp only [install, depsOf] at hw ⊢
    rw [hw]
    rfl
  · intro table cs
    have h := (runLoop_events cs table []).1
    simpa [runLoop] using h

theorem chain_short_circuit_c5_witness :
    install ⟨.error (.Other "x"), .error (.Other "x"), .error (.Other "x"),
        .error (.Other "x"), fun _ => .error (.Other "x"), fun _ => .error (.Other "x"),
        fun _ _ => .error (.Other "x")⟩ .Yarn
      (some [.Failed .NodeJS]) =
      some (.error ⟨.Yarn, .DependencyError .NodeJS⟩, false) :=
  chain_short_circuit_c5.2.2.1 _

/-! ### Per-block behavior of the setup phase -/

theorem blockOf_spec (d : Detect) (st st' : SetupSt) (c : Com)
    (h : blockOf d st c = some st') :
    (∀ c', c' ≠ c → st'.table.borrow_by_com c' = st.table.borrow_by_com c') ∧
    (satisfied st.table d c = true →
      st'.tasks = st.tasks ∧
      (c = .Hydro → st'.events = st.events) ∧
      (c ≠ .Hydro →
        st'.events = st.events ++ [.publish (.Ready c (st'.table.borrow_by_com c))])) ∧
    (satisfied st.table d c = false →
      st'.table = st.table ∧
      st'.tasks = st.tasks ++ [(c, !(depsOf c).isEmpty)] ∧
      st'.events = st.events ++
        (if (depsOf c).isEmpty then [] else [.subscribe c])) := by
  cases c with
  | Hydro =>
    simp only [blockOf] at h
    by_cases hi : st.table.hydro.is_installed
    · rw [if_pos hi] at h
      obtain rfl := Option.some.inj h
      have hsat : satisfied st.table d .Hydro = true := by simp [satisfied, hi]
      exact ⟨fun c' _ => rfl, fun _ => ⟨rfl, fun _ => rfl, fun hne => absurd rfl hne⟩,
        (fun hc => by simp [hsat] at hc)⟩
    · rw [if_neg hi] at h
      obtain rfl := Option.some.inj h
      have hif : st.table.hydro.is_installed = false := by simpa using hi
      have hsat : satisfied st.table d .Hydro = false := by simp [satisfied, hif]
      exact ⟨fun c' _ => rfl, (fun hc => by simp [hsat] at hc),
        fun _ => ⟨rfl, rfl, by simp [depsOf]⟩⟩
  | Yarn =>
    simp only [blockOf] at h
    by_cases hi : st.table.yarn.is_installed
    · rw [if_pos hi] at h
      obtain rfl := Option.some.inj h
      have hsat : satisfied st.table d .Yarn = true := by simp [satisfied, hi]
      exact ⟨fun c' _ => rfl,
        fun _ => ⟨rfl, fun hco => absurd hco (by decide), fun _ => rfl⟩,
        (fun hc => by simp [hsat] at hc)⟩
    · rw [if_neg hi] at h
      have hif : st.table.yarn.is_installed = false := by simpa using hi
      cases hd : d.yarn with
      | some v =>
        rw [hd] at h
        obtain rfl := Option.some.inj h
        have hsat : satisfied st.table d .Yarn = true := by simp [satisfied, hd]
        refine ⟨?_, fun _ => ⟨rfl, fun hco => absurd hco (by decide), fun _ => rfl⟩,
          (fun hc => by simp [hsat] at hc)⟩
        intro c' hc'
        cases c' <;> first | rfl | exact absurd rfl hc'
      | none =>
        rw [hd] at h
        obtain rfl := Option.some.inj h
        have hsat : satisfied st.table d .Yarn = false := by simp [satisfied, hif, hd]
        exact ⟨fun c' _ => rfl, (fun hc => by simp [hsat] at hc),
          fun _ => ⟨rfl, rfl, by simp [depsOf]⟩⟩
  | PM2 =>
    simp only [blockOf] at h
    by_cases hi : st.table.pm2.is_installed
    · rw [if_pos hi] at h
      obtain rfl := Option.some.inj h
      have hsat : satisfied st.table d .PM2 = true := by simp [satisfied, hi]
      exact ⟨fun c' _ => rfl,
        fun _ => ⟨rfl, fun hco => absurd hco (by decide), fun _ => rfl⟩,
        (fun hc => by simp [hsat] at hc)⟩
    · rw [if_neg hi] at h
      have hif : st.table.pm2.is_installed = false := by simpa using hi
      cases hd : d.pm2 with
      | some v =>
        rw [hd] at h
        obtain rfl := Option.some.inj h
        have hsat : satisfied st.table d .PM2 = true := by simp [satisfied, hd]
        refine ⟨?_, fun _ => ⟨rfl, fun hco => absurd hco (by decide), fun _ => rfl⟩,
          (fun hc => by simp [hsat] at hc)⟩
        intro c' hc'
        cases c' <;> first | rfl | exact absurd rfl hc'
      | none =>
        rw [hd] at h
        obtain rfl := Option.some.inj h
        have hsat : satisfied st.table d .PM2 = false := by simp [satisfied, hif, hd]
        exact ⟨fun c' _ => rfl, (fun hc => by simp [hsat] at hc),
          fun _ => ⟨rfl, rfl, by simp [depsOf]⟩⟩
  | NodeJS =>
    simp only [blockOf] at h
    by_cases hi : st.table.nodejs.is_installed
    · rw [if_pos hi] at h
      cases hv : st.table.nodejs.version? with
      | none => rw [hv] at h; simp at h
      | some sv =>
        rw [hv] at h
        obtain rfl := Option.some.inj h
        have hsat : satisfied st.table d .NodeJS = true := by simp [satisfied, hi]
        exact ⟨fun c' _ => rfl,
          fun _ => ⟨rfl, fun hco => absurd hco (by decide), fun _ => rfl⟩,
          (fun hc => by simp [hsat] at hc)⟩
    · rw [if_neg hi] at h
      have hif : st.table.nodejs.is_installed = false := by simpa using hi
      cases hd : d.nodejs with
      | some v =>
        rw [hd] at h
        obtain rfl := Option.some.inj h
        have hsat : satisfied st.table d .NodeJS = true := by simp [satisfied, hd]
        refine ⟨?_, fun _ => ⟨rfl, fun hco => absurd hco (by decide), fun _ => rfl⟩,
          (fun hc => by simp [hsat] at hc)⟩
        intro c' hc'
        cases c' <;> first | rfl | exact absurd rfl hc'
      | none =>
        rw [hd] at h
        obtain rfl := Option.some.inj h
        have hsat : satisfied st.table d .NodeJS = false := by simp [satisfied, hif, hd]
        exact ⟨fun c' _ => rfl, (fun hc => by simp [hsat] at hc),
          fun _ => ⟨rfl, rfl, by simp [depsOf]⟩⟩
  | MongoDB =>
    simp only [blockOf] at h
    by_cases hi : st.table.mongodb.is_installed
    · rw [if_pos hi] at h
      cases hv : st.table.mongodb.version? with
      | none => rw [hv] at h; simp at h
      | some sv =>
        rw [hv] at h
        obtain rfl := Option.some.inj h
        have hsat : satisfied st.table d .MongoDB = true := by simp [satisfied, hi]
        exact ⟨fun c' _ => rfl,
          fun _ => ⟨rfl, fun hco => absurd hco (by decide), fun _ => rfl⟩,
          (fun hc => by simp [hsat] at hc)⟩
    · rw [if_neg hi] at h
      have hif : st.table.mongodb.is_installed = false := by simpa using hi
      cases hd : d.mongodb with
      | some v =>
        rw [hd] at h
        obtain rfl := Option.some.inj h
        have hsat : satisfied st.table d .MongoDB = true := by simp [satisfied, hd]
        refine ⟨?_, fun _ => ⟨rfl, fun hco => absurd hco (by decide), fun _ => rfl⟩,
          (fun hc => by simp [hsat] at hc)⟩
        intro c' hc'
        cases c' <;> first | rfl | exact absurd rfl hc'
      | none =>
        rw [hd] at h
        obtain rfl := Option.some.inj h
        have hsat : satisfied st.table d .MongoDB = false := by simp [satisfied, hif, hd]
        exact ⟨fun c' _ => rfl, (fun hc => by simp [hsat] at hc),
          fun _ => ⟨rfl, rfl, by simp [depsOf]⟩⟩
  | Minio =>
    simp only [blockOf] at h
    by_cases hi : st.table.minio.is_installed
    · rw [if_pos hi] at h
      obtain rfl := Option.some.inj h
      have hsat : satisfied st.table d .Minio = true := by simp [satisfied, hi]
      exact ⟨fun c' _ => rfl,
        fun _ => ⟨rfl, fun hco => absurd hco (by decide), fun _ => rfl⟩,
        (fun hc => by simp [hsat] at hc)⟩
    · rw [if_neg hi] at h
      have hif : st.table.minio.is_installed = false := by simpa using hi
      by_cases hd : d.minio
      · rw [if_pos hd] at h
        obtain rfl := Option.some.inj h
        have hsat : satisfied st.table d .Minio = true := by simp [satisfied, hd]
        refine ⟨?_, fun _ => ⟨rfl, fun hco => absurd hco (by decide), fun _ => rfl⟩,
          (fun hc => by simp [hsat] at hc)⟩
        intro c' hc'
        cases c' <;> first | rfl | exact absurd rfl hc'
      · rw [if_neg hd] at h
        obtain rfl := Option.some.inj h
        have hdf : d.minio = false := by simpa using hd
        have hsat : satisfied st.table d .Minio = false := by simp [satisfied, hif, hdf]
        exact ⟨fun c' _ => rfl, (fun hc => by simp [hsat] at hc),
          fun _ => ⟨rfl, rfl, by simp [depsOf]⟩⟩
  | Sandbox =>
    simp only [blockOf] at h
    by_cases hi : st.table.sandbox.is_installed
    · rw [if_pos hi] at h
      obtain rfl := Option.some.inj h
      have hsat : satisfied st.table d .Sandbox = true := by simp [satisfied, hi]
      exact ⟨fun c' _ => rfl,
        fun _ => ⟨rfl, fun hco => absurd hco (by decide), fun _ => rfl⟩,
        (fun hc => by simp [hsat] at hc)⟩
    · rw [if_neg hi] at h
      obtain rfl := Option.some.inj h
      have hif : st.table.sandbox.is_installed = false := by simpa using hi
      have hsat : satisfied st.table d .Sandbox = false := by simp [satisfied, hif]
      exact ⟨fun c' _ => rfl, (fun hc => by simp [hsat] at hc),
        fun _ => ⟨rfl, rfl, by simp [depsOf]⟩⟩

theorem blockOf_events_tag (d : Detect) (st st' : SetupSt) (c : Com)
    (h : blockOf d st c = some st') :
    ∃ es, st'.events = st.events ++ es ∧ ∀ e ∈ es, eventCom e = c := by
  obtain ⟨hframe, hsat, hunsat⟩ := blockOf_spec d st st' c h
  cases hs : satisfied st.table d c
  · obtain ⟨_, _, hev⟩ := hunsat hs
    refine ⟨if (depsOf c).isEmpty then [] else [.subscribe c], hev, ?_⟩
    intro e he
    by_cases hde : (depsOf c).isEmpty
    · rw [if_pos hde] at he; cases he
    · rw [if_neg hde] at he
      obtain rfl := List.mem_singleton.mp he
      rfl
  · obtain ⟨_, hhy, hnhy⟩ := hsat hs
    by_cases hc : c = .Hydro
    · exact ⟨[], by simpa using hhy hc, by simp⟩
    · refine ⟨[.publish (.Ready c (st'.table.borrow_by_com c))], hnhy hc, ?_⟩
      intro e he
      obtain rfl := List.mem_singleton.mp he
      rfl

theorem blockOf_tasks_tag (d : Detect) (st st' : SetupSt) (c : Com)
    (h : blockOf d st c = some st') :
    ∃ ts, st'.tasks = st.tasks ++ ts ∧ ∀ t ∈ ts, t.1 = c := by
  obtain ⟨hframe, hsat, hunsat⟩ := blockOf_spec d st st' c h
  cases hs : satisfied st.table d c
  · obtain ⟨_, hts, _⟩ := hunsat hs
    refine ⟨[(c, !(depsOf c).isEmpty)], hts, ?_⟩
    intro t ht
    obtain rfl := List.mem_singleton.mp ht
    rfl
  · obtain ⟨hts, _, _⟩ := hsat hs
    exact ⟨[], by simpa using hts, by simp⟩

theorem foldBlocks_spec (d : Detect) :
    ∀ (l : List Com) (st st' : SetupSt),
      l.foldlM (fun s c => blockOf d s c) st = some st' →
      ∃ es ts, st'.events = st.events ++ es ∧ st'.tasks = st.tasks ++ ts ∧
        (∀ e ∈ es, eventCom e ∈ l) ∧ (∀ t ∈ ts, t.1 ∈ l) ∧
        (∀ c', c' ∉ l → st'.table.borrow_by_com c' = st.table.borrow_by_com c') := by
  intro l
  induction l with
  | nil =>
    intro st st' h
    obtain rfl := Option.some.inj h
    exact ⟨[], [], by simp, by simp, by simp, by simp, fun _ _ => rfl⟩
  | cons a t ih =>
    intro st st' h
    rw [List.foldlM_cons] at h
    cases hb : blockOf d st a with
    | none => rw [hb] at h; cases h
    | some st1 =>
      rw [hb] at h
      obtain ⟨es2, ts2, hev2, hts2, htag2, httag2, hframe2⟩ := ih st1 st' h
      obtain ⟨es1, hev1, htag1⟩ := blockOf_events_tag d st st1 a hb
      obtain ⟨ts1, hts1, httag1⟩ := blockOf_tasks_tag d st st1 a hb
      obtain ⟨hframe1, _, _⟩ := blockOf_spec d st st1 a hb
      refine ⟨es1 ++ es2, ts1 ++ ts2, ?_, ?_, ?_, ?_, ?_⟩
      · rw [hev2, hev1, List.append_assoc]
      · rw [hts2, hts1, List.append_assoc]
      · intro e he
        rcases List.mem_append.mp he with h1 | h1
        · exact htag1 e h1 ▸ List.mem_cons_self a t
        · exact List.mem_cons_of_mem a (htag2 e h1)
      · intro tk hk
        rcases List.mem_append.mp hk with h1 | h1
        · exact httag1 tk h1 ▸ List.mem_cons_self a t
        · exact List.mem_cons_of_mem a (httag2 tk h1)
      · intro c' hc'
        have h1 : c' ≠ a := fun hh => hc' (hh ▸ List.mem_cons_self a t)
        have h2 : c' ∉ t := fun hh => hc' (List.mem_cons_of_mem a hh)
        rw [hframe2 c' h2, hframe1 c' h1]

theorem satisfied_congr (t t' : Components) (d : Detect) (c : Com)
    (h : t.borrow_by_com c = t'.borrow_by_com c) :
    satisfied t d c = satisfied t' d c := by
  cases c <;> simp only [Components.borrow_by_com] at h <;>
    simp only [satisfied, h]

theorem setup_split (cfg : Components) (d : Detect) (st : SetupSt)
    (h : setup cfg d = some st) (l1 l2 : List Com) (hsplit : comOrder = l1 ++ l2) :
    ∃ st1, l1.foldlM (fun s c => blockOf d s c) ⟨cfg, [], []⟩ = some st1 ∧
      l2.foldlM (fun s c => blockOf d s c) st1 = some st := by
  unfold setup at h
  rw [hsplit, List.foldlM_append] at h
  cases h1 : l1.foldlM (fun s c => blockOf d s c) (⟨cfg, [], []⟩ : SetupSt) with
  | none => rw [h1] at h; cases h
  | some st1 =>
    rw [h1] at h
    exact ⟨st1, rfl, h⟩

/-! ### The subscription-before-publish checker -/

theorem chk_noPubB (A B : Com) :
    ∀ (es : List Event), (∀ e ∈ es, eventCom e ≠ B) →
      es.foldl (chkStep A B) (some false) = some false := by
  intro es
  induction es with
  | nil => intro _; rfl
  | cons e t ih =>
    intro hes
    have hstep : chkStep A B (some false) e = some false := by
      cases e with
      | subscribe c => simp [chkStep]
      | publish s =>
        have : sigCom s ≠ B := hes (.publish s) (List.mem_cons_self _ _)
        simp [chkStep, this]
    rw [List.foldl_cons, hstep]
    exact ih (fun e' he' => hes e' (List.mem_cons_of_mem e he'))

theorem chk_noSubA (A B : Com) :
    ∀ (es : List Event) (b : Bool), (∀ e ∈ es, e ≠ .subscribe A) →
      (es.foldl (chkStep A B) (some b)).isSome = true := by
  intro es
  induction es with
  | nil => intro b _; rfl
  | cons e t ih =>
    intro b hes
    cases e with
    | subscribe c =>
      have hca : c ≠ A := fun hcA =>
        hes (.subscribe c) (List.mem_cons_self _ _) (by rw [hcA])
      rw [List.foldl_cons]
      have : chkStep A B (some b) (.subscribe c) = some b := by
        simp [chkStep, hca]
      rw [this]
      exact ih b (fun e' he' => hes e' (List.mem_cons_of_mem _ he'))
    | publish s =>
      rw [List.foldl_cons]
      exact ih _ (fun e' he' => hes e' (List.mem_cons_of_mem _ he'))

theorem subBeforePub_of_split (A B : Com) (pre post : List Event)
    (hpre : ∀ e ∈ pre, eventCom e ≠ B) (hpost : ∀ e ∈ post, e ≠ .subscribe A) :
    subBeforePub A B (pre ++ post) = true := by
  unfold subBeforePub
  rw [List.foldl_append, chk_noPubB A B pre hpre]
  exact chk_noSubA A B post false hpost

/-! ### Claims C1, C3, C8 -/

/-- C1: for every dependency edge (A requires B), every subscription
created for A's task precedes every published signal for B in the full
bus trace (setup events in source order followed by the completion
loop's publishes, for any completion order), so A's wait can never miss
B's signal on the no-replay bus. -/
theorem sub_before_pub_c1 (cfg : Components) (d : Detect) (st : SetupSt)
    (cs : List (Except Error (Com × ComponentInfo)))
    (h : setup cfg d = some st) (A B : Com) (hAB : B ∈ depsOf A) :
    subBeforePub A B (st.events ++ (runLoop st.table cs).2) = true := by
  have hedge : ∀ (l1 l2 : List Com), comOrder = l1 ++ l2 → B ∉ l1 → A ∉ l2 →
      subBeforePub A B (st.events ++ (runLoop st.table cs).2) = true := by
    intro l1 l2 hsplit hB hA2
    obtain ⟨st1, h1, h2⟩ := setup_split cfg d st h l1 l2 hsplit
    obtain ⟨es1, ts1, hev1, _, htag1, _, _⟩ := foldBlocks_spec d l1 ⟨cfg, [], []⟩ st1 h1
    obtain ⟨es2, ts2, hev2, _, htag2, _, _⟩ := foldBlocks_spec d l2 st1 st h2
    have hloop := runLoop_events cs st.table []
    have htrace : st.events ++ (runLoop st.table cs).2
        = st1.events ++ (es2 ++ (runLoop st.table cs).2) := by
      rw [hev2, List.append_assoc]
    rw [htrace]
    apply subBeforePub_of_split
    · intro e he
      have hmem : eventCom e ∈ l1 := by
        rw [hev1] at he
        exact htag1 e (by simpa using he)
      exact fun hEB => hB (hEB ▸ hmem)
    · intro e he
      rcases List.mem_append.mp he with h1 | h1
      · have hmem : eventCom e ∈ l2 := htag2 e h1
        intro heq
        rw [heq] at hmem
        exact hA2 hmem
      · rcases hloop.2 e (by simpa [runLoop] using h1) with h3 | h3
        · cases h3
        · obtain ⟨s, rfl⟩ := h3
          intro heq
          cases heq
  cases A with
  | NodeJS => cases hAB
  | MongoDB => cases hAB
  | Minio => cases hAB
  | Sandbox => cases hAB
  | Yarn =>
    obtain rfl := List.mem_singleton.mp hAB
    exact hedge [.Hydro, .Yarn] [.PM2, .NodeJS, .MongoDB, .Minio, .Sandbox]
      (by decide) (by decide) (by decide)
  | PM2 =>
    obtain rfl := List.mem_singleton.mp hAB
    exact hedge [.Hydro, .Yarn, .PM2] [.NodeJS, .MongoDB, .Minio, .Sandbox]
      (by decide) (by decide) (by decide)
  | Hydro =>
    rcases hAB with _ | ⟨_, hB⟩
    · exact hedge [.Hydro] [.Yarn, .PM2, .NodeJS, .MongoDB, .Minio, .Sandbox]
        (by decide) (by decide) (by decide)
    · obtain rfl := List.mem_singleton.mp hB
      exact hedge [.Hydro] [.Yarn, .PM2, .NodeJS, .MongoDB, .Minio, .Sandbox]
        (by decide) (by decide) (by decide)

theorem sub_before_pub_c1_witness :
    ((setup allValidTable noDetect).map
      (fun st => subBeforePub .Yarn .NodeJS
        (st.events ++ (runLoop st.table []).2))) = some true := by
  cases hst : setup allValidTable noDetect with
  | none => exact absurd hst (by decide)
  | some st =>
    exact congrArg some
      (sub_before_pub_c1 allValidTable noDetect st [] hst .Yarn .NodeJS (by decide))

/-- C3 as stated is false on the code: with every component already
installed, Hydro is satisfied at startup but the Hydro block publishes
no Ready (or any) signal for Hydro at all — the orchestrator only skips
it (Hydro has no dependents). -/
theorem satisfied_skip_c3_counterexample :
    satisfied allValidTable noDetect .Hydro = true ∧
    (setup allValidTable noDetect).map
      (fun st => st.events.filter (fun e => eventCom e = .Hydro)) = some [] := by
  decide

/-- C3 amended: every component satisfied at startup gets no scheduled
install task, and every satisfied component other than Hydro immediately
gets `Ready(id, existing info)` published (with the info the setup
phase recorded for it); Hydro, which no component depends on, publishes
nothing when satisfied.  If every component is satisfied, no task is
scheduled at all. -/
theorem satisfied_skip_c3_amended (cfg : Components) (d : Detect) (st : SetupSt)
    (h : setup cfg d = some st) :
    (∀ c, satisfied cfg d c = true →
      (∀ b, (c, b) ∉ st.tasks) ∧
      (c ≠ .Hydro → .publish (.Ready c (st.table.borrow_by_com c)) ∈ st.events)) ∧
    ((∀ c, satisfied cfg d c = true) → st.tasks = []) := by
  have hmain : ∀ (c : Com) (l1 l2 : List Com), comOrder = l1 ++ c :: l2 →
      c ∉ l1 → c ∉ l2 → satisfied cfg d c = true →
      (∀ b, (c, b) ∉ st.tasks) ∧
      (c ≠ .Hydro → .publish (.Ready c (st.table.borrow_by_com c)) ∈ st.events) := by
    intro c l1 l2 hsplit hn1 hn2 hsat
    obtain ⟨st1, h1, hrest⟩ := setup_split cfg d st h l1 (c :: l2) hsplit
    rw [List.foldlM_cons] at hrest
    cases hb : blockOf d st1 c with
    | none => rw [hb] at hrest; cases hrest
    | some st2 =>
      rw [hb] at hrest
      obtain ⟨es1, ts1, hev1, hts1, htag1, httag1, hframe1⟩ :=
        foldBlocks_spec d l1 ⟨cfg, [], []⟩ st1 h1
      obtain ⟨es2, ts2, hev2, hts2, htag2, httag2, hframe2⟩ :=
        foldBlocks_spec d l2 st2 st hrest
      have hbfr : st1.table.borrow_by_com c = cfg.borrow_by_com c := hframe1 c hn1
      have hsat1 : satisfied st1.table d c = true := by
        rw [satisfied_congr st1.table cfg d c hbfr]
        exact hsat
      obtain ⟨hfrB, hsatB, _⟩ := blockOf_spec d st1 st2 c hb
      obtain ⟨htsB, hhyB, hnhyB⟩ := hsatB hsat1
      constructor
      · intro b hmem
        rw [hts2, htsB, hts1] at hmem
        simp only [List.append_assoc, List.mem_append] at hmem
        rcases hmem with hm | hm
        · simp at hm
        · rcases hm with hm | hm
          · exact hn1 (httag1 (c, b) hm)
          · exact hn2 (httag2 (c, b) hm)
      · intro hcH
        have hevB := hnhyB hcH
        have hpay : st.table.borrow_by_com c = st2.table.borrow_by_com c :=
          hframe2 c hn2
        rw [hev2, hevB, hpay]
        simp
  have halltasks : ∀ (l : List Com), l.Nodup → ∀ (s0 s1 : SetupSt),
      l.foldlM (fun s c => blockOf d s c) s0 = some s1 →
      (∀ c ∈ l, satisfied s0.table d c = true) →
      s1.tasks = s0.tasks := by
    intro l
    induction l with
    | nil =>
      intro _ s0 s1 h0 _
      obtain rfl := Option.some.inj h0
      rfl
    | cons a t ih =>
      intro hnd s0 s1 h0 hsat
      obtain ⟨hat, hndt⟩ := List.nodup_cons.mp hnd
      rw [List.foldlM_cons] at h0
      cases hb : blockOf d s0 a with
      | none => rw [hb] at h0; cases h0
      | some sA =>
        rw [hb] at h0
        obtain ⟨hfr, hsatB, _⟩ := blockOf_spec d s0 sA a hb
        obtain ⟨htsB, _, _⟩ := hsatB (hsat a (List.mem_cons_self a t))
        have hsat' : ∀ c ∈ t, satisfied sA.table d c = true := by
          intro c hc
          have hne : c ≠ a := fun hh => hat (hh ▸ hc)
          rw [satisfied_congr sA.table s0.table d c (hfr c hne)]
          exact hsat c (List.mem_cons_of_mem a hc)
        rw [ih hndt sA s1 h0 hsat', htsB]
  constructor
  · intro c
    cases c with
    | Hydro =>
      exact hmain .Hydro [] [.Yarn, .PM2, .NodeJS, .MongoDB, .Minio, .Sandbox] rfl (by decide) (by decide)
    | Yarn =>
      exact hmain .Yarn [.Hydro] [.PM2, .NodeJS, .MongoDB, .Minio, .Sandbox] rfl (by decide) (by decide)
    | PM2 =>
      exact hmain .PM2 [.Hydro, .Yarn] [.NodeJS, .MongoDB, .Minio, .Sandbox] rfl (by decide) (by decide)
    | NodeJS =>
      exact hmain .NodeJS [.Hydro, .Yarn, .PM2] [.MongoDB, .Minio, .Sandbox] rfl (by decide) (by decide)
    | MongoDB =>
      exact hmain .MongoDB [.Hydro, .Yarn, .PM2, .NodeJS] [.Minio, .Sandbox] rfl (by decide) (by decide)
    | Minio =>
      exact hmain .Minio [.Hydro, .Yarn, .PM2, .NodeJS, .MongoDB] [.Sandbox] rfl (by decide) (by decide)
    | Sandbox =>
      exact hmain .Sandbox [.Hydro, .Yarn, .PM2, .NodeJS, .MongoDB, .Minio] [] rfl (by decide) (by decide)
  · intro hall
    have := halltasks comOrder (by decide) ⟨cfg, [], []⟩ st h
      (fun c _ => hall c)
    simpa using this

theorem satisfied_skip_c3_witness :
    (setup allValidTable noDetect).map (fun st => st.tasks) = some [] := by
  cases hst : setup allValidTable noDetect with
  | none => exact absurd hst (by decide)
  | some st =>
    exact congrArg some
      ((satisfied_skip_c3_amended allValidTable noDetect st hst).2
        (fun c => by cases c <;> rfl))

theorem borrow_write_self (t : Components) (c : Com) (info : ComponentInfo) :
    (t.write_by_com c info).borrow_by_com c = info := by
  cases c <;> rfl

theorem borrow_write_ne (t : Components) (c c' : Com) (info : ComponentInfo)
    (h : c' ≠ c) :
    (t.write_by_com c info).borrow_by_com c' = t.borrow_by_com c' := by
  cases c <;> cases c' <;> first | rfl | exact absurd rfl h

theorem runLoop_frame :
    ∀ (cs : List (Except Error (Com × ComponentInfo))) (t : Components)
      (evs : List Event) (c' : Com),
      (∀ r ∈ cs, ∀ info, r ≠ .ok (c', info)) →
      (cs.foldl loopStep (t, evs)).1.borrow_by_com c' = t.borrow_by_com c' := by
  intro cs
  induction cs with
  | nil => intro t evs c' _; rfl
  | cons r rest ih =>
    intro t evs c' hno
    cases r with
    | ok p =>
      obtain ⟨c, info⟩ := p
      have hne : c' ≠ c := fun hh =>
        hno (.ok (c, info)) (List.mem_cons_self _ _) info (by rw [hh])
      simp only [List.foldl_cons, loopStep]
      rw [ih _ _ c' (fun r hr => hno r (List.mem_cons_of_mem _ hr)),
        borrow_write_ne t c c' info hne]
    | error e =>
      simp only [List.foldl_cons, loopStep]
      exact ih _ _ c' (fun r hr => hno r (List.mem_cons_of_mem _ hr))

/-- C8: the completion loop is the single writer of the canonical table:
a successful completion replaces exactly the completed component's entry
and publishes Ready with the written info; a failed completion writes
nothing and publishes Failed; and over a whole run, any component with
no successful completion keeps its table entry unchanged. -/
theorem single_writer_c8 :
    (∀ (t : Components) (evs : List Event) (c : Com) (info : ComponentInfo),
      (loopStep (t, evs) (.ok (c, info))).1.borrow_by_com c = info ∧
      (∀ c', c' ≠ c →
        (loopStep (t, evs) (.ok (c, info))).1.borrow_by_com c' = t.borrow_by_com c') ∧
      (loopStep (t, evs) (.ok (c, info))).2 = evs ++ [.publish (.Ready c info)]) ∧
    (∀ (t : Components) (evs : List Event) (e : Error),
      loopStep (t, evs) (.error e) = (t, evs ++ [.publish (.Failed e.com)])) ∧
    (∀ (t : Components) (cs : List (Except Error (Com × ComponentInfo))) (c' : Com),
      (∀ r ∈ cs, ∀ info, r ≠ .ok (c', info)) →
      (runLoop t cs).1.borrow_by_com c' = t.borrow_by_com c') := by
  refine ⟨?_, ?_, ?_⟩
  · intro t evs c info
    refine ⟨borrow_write_self t c info, ?_, ?_⟩
    · intro c' hc'
      exact borrow_write_ne t c c' info hc'
    · simp only [loopStep, borrow_write_self]
  · intro t evs e
    rfl
  · intro t cs c' hno
    exact runLoop_frame cs t [] c' hno

theorem single_writer_c8_witness :
    (loopStep (allValidTable, []) (.ok (.Yarn, ⟨.Installed, none⟩))).1.borrow_by_com
        .Yarn = ⟨.Installed, none⟩ ∧
    (loopStep (allValidTable, []) (.ok (.Yarn, ⟨.Installed, none⟩))).1.borrow_by_com
        .PM2 = allValidTable.borrow_by_com .PM2 ∧
    (runLoop allValidTable [.error ⟨.Minio, .NoAvailableSource⟩]).1.borrow_by_com
        .Hydro = allValidTable.borrow_by_com .Hydro :=
  ⟨(single_writer_c8.1 allValidTable [] .Yarn ⟨.Installed, none⟩).1,
    (single_writer_c8.1 allValidTable [] .Yarn ⟨.Installed, none⟩).2.1 .PM2 (by decide),
    single_writer_c8.2.2 allValidTable [.error ⟨.Minio, .NoAvailableSource⟩] .Hydro
      (fun r hr info => by
        obtain rfl := List.mem_singleton.mp hr
        simp)⟩

/-! ### Decimal printing and parsing round-trip -/

theorem natCharsAux_eq :
    ∀ (fuel n : Nat), n ≤ fuel →
      natCharsAux fuel n = (Nat.digits 10 n).reverse.map Nat.digitChar := by
  intro fuel
  induction fuel with
  | zero =>
    intro n hn
    obtain rfl : n = 0 := Nat.le_zero.mp hn
    simp [natCharsAux]
  | succ f ih =>
    intro n hn
    by_cases h0 : n = 0
    · subst h0; simp [natCharsAux]
    · have hdiv : n / 10 ≤ f := by
        have : n / 10 < n := Nat.div_lt_self (Nat.pos_of_ne_zero h0) (by norm_num)
        omega
      have hstep : natCharsAux (f + 1) n
          = natCharsAux f (n / 10) ++ [Nat.digitChar (n % 10)] := by
        simp [natCharsAux, h0]
      rw [hstep, ih _ hdiv,
        Nat.digits_def' (by norm_num : (1 : Nat) < 10) (Nat.pos_of_ne_zero h0)]
      simp

theorem natChars_eq (n : Nat) :
    natChars n = if n = 0 then ['0'] else (Nat.digits 10 n).reverse.map Nat.digitChar := by
  unfold natChars
  by_cases h : n = 0
  · simp [h]
  · simp [h, natCharsAux_eq n n le_rfl]

theorem natChars_ne_nil (n : Nat) : natChars n ≠ [] := by
  rw [natChars_eq]
  by_cases h : n = 0
  · simp [h]
  · have hd : Nat.digits 10 n ≠ [] := Nat.digits_ne_nil_iff_ne_zero.mpr h
    simp [h, hd]

theorem natChars_digits (n : Nat) : ∀ c ∈ natChars n, c.isDigit = true := by
  rw [natChars_eq]
  by_cases h : n = 0
  · intro c hc
    rw [if_pos h] at hc
    obtain rfl := List.mem_singleton.mp hc
    decide
  · intro c hc
    rw [if_neg h] at hc
    obtain ⟨d, hd, rfl⟩ := List.mem_map.mp hc
    have hd10 : d < 10 :=
      Nat.digits_lt_base (by norm_num) (List.mem_reverse.mp hd)
    exact (by decide : ∀ x < 10, (Nat.digitChar x).isDigit = true) d hd10

theorem not_mem_natChars {x : Char} (hx : ¬x.isDigit = true) (n : Nat) :
    x ∉ natChars n :=
  fun hmem => hx (natChars_digits n x hmem)

theorem natChars_no_leading (n : Nat) :
    ¬(1 < (natChars n).length ∧ (natChars n).head? = some '0') := by
  rw [natChars_eq]
  by_cases h : n = 0
  · simp [h]
  · rw [if_neg h]
    rintro ⟨-, hhead⟩
    have hd : Nat.digits 10 n ≠ [] := Nat.digits_ne_nil_iff_ne_zero.mpr h
    rw [List.head?_map, List.head?_reverse] at hhead
    obtain ⟨d, hdl, hdc⟩ := Option.map_eq_some'.mp hhead
    have hd10 : d < 10 :=
      Nat.digits_lt_base (by norm_num) (List.mem_of_mem_getLast? hdl)
    have hdne : d ≠ 0 := by
      have hz := Nat.getLast_digit_ne_zero 10 h
      rw [List.getLast?_eq_getLast _ hd, Option.some.injEq] at hdl
      exact hdl ▸ hz
    exact (by decide : ∀ x < 10, x ≠ 0 → Nat.digitChar x ≠ '0') d hd10 hdne hdc

theorem mapM_digitVal (l : List Nat) (h : ∀ d ∈ l, d < 10) :
    (l.map Nat.digitChar).mapM digitVal? = some l := by
  induction l with
  | nil => rfl
  | cons d t ih =>
    have hd : digitVal? (Nat.digitChar d) = some d :=
      (by decide : ∀ x < 10, digitVal? (Nat.digitChar x) = some x) d
        (h d (List.mem_cons_self d t))
    rw [List.map_cons, List.mapM_cons, hd,
      ih (fun d' hd' => h d' (List.mem_cons_of_mem d hd'))]
    rfl

theorem parseNatNoZeros_natChars (n : Nat) : parseNatNoZeros? (natChars n) = some n := by
  by_cases h0 : n = 0
  · subst h0; decide
  · cases hcs : natChars n with
    | nil => exact absurd hcs (natChars_ne_nil n)
    | cons a t =>
      have hlead := natChars_no_leading n
      rw [hcs] at hlead
      have hstep : parseNatNoZeros? (a :: t)
          = ((a :: t).mapM digitVal?).map (fun ds => Nat.ofDigits 10 ds.reverse) := by
        simp only [parseNatNoZeros?]
        rw [if_neg hlead]
      rw [hstep, ← hcs, natChars_eq, if_neg h0,
        mapM_digitVal _ (fun d hd =>
          Nat.digits_lt_base (by norm_num) (List.mem_reverse.mp hd))]
      simp [Nat.ofDigits_digits]

theorem parseNatCore_natChars (n : Nat) (hb : n < 2 ^ 64) :
    parseNatCore? (natChars n) = some n := by
  unfold parseNatCore?
  rw [parseNatNoZeros_natChars]
  have hb' : n < 18446744073709551616 := by
    calc n < 2 ^ 64 := hb
    _ = 18446744073709551616 := by norm_num
  simp [hb']

/-! ### Splitting and joining lemmas -/

theorem splitFirst_not_mem (c : Char) :
    ∀ (l : List Char), c ∉ l → splitFirst c l = (l, none) := by
  intro l
  induction l with
  | nil => intro _; rfl
  | cons x xs ih =>
    intro h
    have hxc : ¬x = c := fun hh => h (hh ▸ List.mem_cons_self x xs)
    have hxs : c ∉ xs := fun hh => h (List.mem_cons_of_mem x hh)
    simp [splitFirst, hxc, ih hxs]

theorem splitFirst_append (c : Char) :
    ∀ (l : List Char), c ∉ l → ∀ r, splitFirst c (l ++ c :: r) = (l, some r) := by
  intro l
  induction l with
  | nil => intro _ r; simp [splitFirst]
  | cons x xs ih =>
    intro h r
    have hxc : ¬x = c := fun hh => h (hh ▸ List.mem_cons_self x xs)
    have hxs : c ∉ xs := fun hh => h (List.mem_cons_of_mem x hh)
    simp [splitFirst, hxc, ih hxs r]

theorem splitSep_ne_nil (sep : Char) : ∀ (l : List Char), splitSep sep l ≠ [] := by
  intro l
  cases l with
  | nil => simp [splitSep]
  | cons x xs =>
    simp only [splitSep]
    cases splitSep sep xs with
    | nil => simp
    | cons h t =>
      by_cases hx : x = sep <;> simp [hx]

theorem splitSep_not_mem (sep : Char) :
    ∀ (l : List Char), sep ∉ l → splitSep sep l = [l] := by
  intro l
  induction l with
  | nil => intro _; rfl
  | cons x xs ih =>
    intro h
    have hxc : ¬x = sep := fun hh => h (hh ▸ List.mem_cons_self x xs)
    have hxs : sep ∉ xs := fun hh => h (List.mem_cons_of_mem x hh)
    simp [splitSep, ih hxs, hxc]

theorem splitSep_append (sep : Char) :
    ∀ (l : List Char), sep ∉ l → ∀ r,
      splitSep sep (l ++ sep :: r) = l :: splitSep sep r := by
  intro l
  induction l with
  | nil =>
    intro _ r
    cases hs : splitSep sep r with
    | nil => exact absurd hs (splitSep_ne_nil sep r)
    | cons h t => simp [splitSep, hs]
  | cons x xs ih =>
    intro h r
    have hxc : ¬x = sep := fun hh => h (hh ▸ List.mem_cons_self x xs)
    have hxs : sep ∉ xs := fun hh => h (List.mem_cons_of_mem x hh)
    rw [List.cons_append]
    simp only [splitSep]
    rw [ih hxs r]
    simp [hxc]

theorem splitSep_join (sep : Char) :
    ∀ (ps : List (List Char)), ps ≠ [] → (∀ p ∈ ps, sep ∉ p) →
      splitSep sep (joinSep sep ps) = ps := by
  intro ps
  induction ps with
  | nil => intro h _; exact absurd rfl h
  | cons p q ih =>
    intro _ hmem
    cases q with
    | nil =>
      exact splitSep_not_mem sep p (hmem p (List.mem_cons_self p []))
    | cons p2 q2 =>
      have hjoin : joinSep sep (p :: p2 :: q2) = p ++ sep :: joinSep sep (p2 :: q2) := rfl
      rw [hjoin, splitSep_append sep p (hmem p (List.mem_cons_self _ _)),
        ih (by simp) (fun x hx => hmem x (List.mem_cons_of_mem p hx))]

theorem mem_joinSep (sep : Char) :
    ∀ (ps : List (List Char)) (x : Char), x ∈ joinSep sep ps →
      x = sep ∨ ∃ p ∈ ps, x ∈ p := by
  intro ps
  induction ps with
  | nil => intro x hx; cases hx
  | cons p q ih =>
    intro x hx
    cases q with
    | nil =>
      exact Or.inr ⟨p, List.mem_cons_self p [], hx⟩
    | cons p2 q2 =>
      have hjoin : joinSep sep (p :: p2 :: q2) = p ++ sep :: joinSep sep (p2 :: q2) := rfl
      rw [hjoin] at hx
      rcases List.mem_append.mp hx with h1 | h1
      · exact Or.inr ⟨p, List.mem_cons_self _ _, h1⟩
      · rcases List.mem_cons.mp h1 with rfl | h2
        · exact Or.inl rfl
        · rcases ih x h2 with h3 | ⟨p', hp', hx'⟩
          · exact Or.inl h3
          · exact Or.inr ⟨p', List.mem_cons_of_mem p hp', hx'⟩

/-! ### Identifier lemmas -/

theorem isDigit_isIdentChar (c : Char) (h : c.isDigit = true) : isIdentChar c = true := by
  simp [isIdentChar, Char.isAlphanum, h]

theorem parsePreId_preIdChars (p : PreId) (h : p.wf = true) :
    parsePreId? (preIdChars p) = some p := by
  cases p with
  | num n =>
    have hne : (natChars n).isEmpty = false := by
      simp [List.isEmpty_iff, natChars_ne_nil]
    have hdig : (natChars n).all (fun c => c.isDigit) = true := by
      rw [List.all_eq_true]; exact natChars_digits n
    have hident : (natChars n).all isIdentChar = true := by
      rw [List.all_eq_true]
      intro c hc
      exact isDigit_isIdentChar c (natChars_digits n c hc)
    simp only [parsePreId?, preIdChars, hne, hdig, hident, Bool.false_eq_true, if_false,
      not_true, if_pos, parseNatNoZeros_natChars]
    simp [parseNatNoZeros_natChars]
  | alpha s =>
    simp only [PreId.wf, Bool.and_eq_true, Bool.not_eq_true'] at h
    obtain ⟨⟨hne, hall⟩, hnd⟩ := h
    simp only [parsePreId?, preIdChars]
    rw [if_neg (by simp [Bool.not_eq_true] at hne ⊢; simp [hne]),
      if_neg (by simp [hall]), if_neg (by simp [hnd])]

theorem parseBuildId_chars (s : List Char) (h : buildWf s = true) :
    parseBuildId? s = some s := by
  simp only [buildWf, Bool.and_eq_true] at h
  obtain ⟨hne, hall⟩ := h
  simp only [parseBuildId?]
  rw [if_neg (by simp [Bool.not_eq_true] at hne ⊢; simp [hne]), if_pos hall]

theorem mapM_parsePreId (ps : List PreId) (h : ∀ p ∈ ps, p.wf = true) :
    (ps.map preIdChars).mapM parsePreId? = some ps := by
  induction ps with
  | nil => rfl
  | cons p t ih =>
    rw [List.map_cons, List.mapM_cons,
      parsePreId_preIdChars p (h p (List.mem_cons_self p t)),
      ih (fun p' hp' => h p' (List.mem_cons_of_mem p hp'))]
    rfl

theorem mapM_parseBuildId (bs : List (List Char)) (h : ∀ b ∈ bs, buildWf b = true) :
    bs.mapM parseBuildId? = some bs := by
  induction bs with
  | nil => rfl
  | cons b t ih =>
    rw [List.mapM_cons, parseBuildId_chars b (h b (List.mem_cons_self b t)),
      ih (fun b' hb' => h b' (List.mem_cons_of_mem b hb'))]
    rfl

theorem not_mem_preIdChars {x : Char} (hx : ¬x.isDigit = true)
    (hx2 : ∀ c : Char, isIdentChar c = true → c ≠ x)
    (p : PreId) (hw : p.wf = true) : x ∉ preIdChars p := by
  cases p with
  | num n => exact not_mem_natChars hx n
  | alpha s =>
    simp only [PreId.wf, Bool.and_eq_true] at hw
    intro hmem
    have := List.all_eq_true.mp hw.1.2 x hmem
    exact hx2 x this rfl


theorem not_mem_coreChars {x : Char} (hx : ¬x.isDigit = true) (hxd : x ≠ '.')
    (M m p : Nat) : x ∉ coreChars M m p := by
  unfold coreChars
  intro hmem
  rcases List.mem_append.mp hmem with h1 | h1
  · exact not_mem_natChars hx M h1
  · rcases List.mem_cons.mp h1 with h2 | h2
    · exact hxd h2
    · rcases List.mem_append.mp h2 with h3 | h3
      · exact not_mem_natChars hx m h3
      · rcases List.mem_cons.mp h3 with h4 | h4
        · exact hxd h4
        · exact not_mem_natChars hx p h4

theorem splitSep_coreChars (M m p : Nat) :
    splitSep '.' (coreChars M m p) = [natChars M, natChars m, natChars p] := by
  unfold coreChars
  rw [splitSep_append '.' (natChars M) (not_mem_natChars (by decide) M),
    splitSep_append '.' (natChars m) (not_mem_natChars (by decide) m),
    splitSep_not_mem '.' (natChars p) (not_mem_natChars (by decide) p)]

/-- Printing then parsing a well-formed semver value is the identity. -/
theorem semverParse_semverChars :
    ∀ v : SemVer, SemVer.wf v = true → semverParse? (semverChars v) = some v := by
  intro v h
  obtain ⟨M, m, p, pre, build⟩ := v
  simp only [SemVer.wf, Bool.and_eq_true, decide_eq_true_eq] at h
  obtain ⟨⟨⟨⟨hM, hm⟩, hp⟩, hpreAll⟩, hbuildAll⟩ := h
  have hpre' : ∀ q ∈ pre, q.wf = true := List.all_eq_true.mp hpreAll
  have hbuild' : ∀ b ∈ build, buildWf b = true := List.all_eq_true.mp hbuildAll
  have hidentDot : ∀ c : Char, isIdentChar c = true → c ≠ '.' :=
    fun c hci hcc => absurd (hcc ▸ hci) (by decide)
  have hidentPlus : ∀ c : Char, isIdentChar c = true → c ≠ '+' :=
    fun c hci hcc => absurd (hcc ▸ hci) (by decide)
  have hdotPre : ∀ q ∈ pre, ('.' : Char) ∉ preIdChars q :=
    fun q hq => not_mem_preIdChars (by decide) hidentDot q (hpre' q hq)
  have hplusPre : ∀ q ∈ pre, ('+' : Char) ∉ preIdChars q :=
    fun q hq => not_mem_preIdChars (by decide) hidentPlus q (hpre' q hq)
  have hdotBuild : ∀ b ∈ build, ('.' : Char) ∉ b := by
    intro b hb hmem
    have hb2 := hbuild' b hb
    simp only [buildWf, Bool.and_eq_true] at hb2
    exact hidentDot '.' (List.all_eq_true.mp hb2.2 '.' hmem) rfl
  have hcoreP : ('+' : Char) ∉ coreChars M m p :=
    not_mem_coreChars (by decide) (by decide) M m p
  have hcoreD : ('-' : Char) ∉ coreChars M m p :=
    not_mem_coreChars (by decide) (by decide) M m p
  have hMn := parseNatCore_natChars M hM
  have hmn := parseNatCore_natChars m hm
  have hpn := parseNatCore_natChars p hp
  have hsplitCore := splitSep_coreChars M m p
  cases pre with
  | nil =>
    cases build with
    | nil =>
      have hchars : semverChars ⟨M, m, p, [], []⟩ = coreChars M m p := by
        simp [semverChars, coreChars]
      rw [hchars]
      have h1 := splitFirst_not_mem '+' _ hcoreP
      have h2 := splitFirst_not_mem '-' _ hcoreD
      simp only [semverParse?, h1, h2, hsplitCore]
      simp [hMn, hmn, hpn]
    | cons b0 bt =>
      have hchars : semverChars ⟨M, m, p, [], b0 :: bt⟩
          = coreChars M m p ++ '+' :: joinSep '.' (b0 :: bt) := by
        simp [semverChars, coreChars, List.append_assoc]
      rw [hchars]
      have h1 := splitFirst_append '+' _ hcoreP (joinSep '.' (b0 :: bt))
      have h2 := splitFirst_not_mem '-' _ hcoreD
      have h3 := splitSep_join '.' (b0 :: bt) (by simp) hdotBuild
      have h4 := mapM_parseBuildId (b0 :: bt) hbuild'
      simp only [semverParse?, h1, h2, hsplitCore, h3, h4]
      simp [hMn, hmn, hpn]
  | cons q0 qt =>
    have hplusP : ('+' : Char) ∉ joinSep '.' ((q0 :: qt).map preIdChars) := by
      intro hmem
      rcases mem_joinSep '.' _ '+' hmem with h1 | ⟨pc, hpc, hin⟩
      · exact absurd h1 (by decide)
      · obtain ⟨q, hq, rfl⟩ := List.mem_map.mp hpc
        exact hplusPre q hq hin
    have hjoinPre := splitSep_join '.' ((q0 :: qt).map preIdChars) (by simp)
      (by
        intro pc hpc
        obtain ⟨q, hq, rfl⟩ := List.mem_map.mp hpc
        exact hdotPre q hq)
    have hmapPre := mapM_parsePreId (q0 :: qt) hpre'
    cases build with
    | nil =>
      have hchars : semverChars ⟨M, m, p, q0 :: qt, []⟩
          = coreChars M m p ++ '-' :: joinSep '.' ((q0 :: qt).map preIdChars) := by
        simp [semverChars, coreChars, List.append_assoc]
      rw [hchars]
      have hplusAll : ('+' : Char) ∉
          coreChars M m p ++ '-' :: joinSep '.' ((q0 :: qt).map preIdChars) := by
        intro hmem
        rcases List.mem_append.mp hmem with h1 | h1
        · exact hcoreP h1
        · rcases List.mem_cons.mp h1 with h2 | h2
          · exact absurd h2 (by decide)
          · exact hplusP h2
      have h1 := splitFirst_not_mem '+' _ hplusAll
      have h2 := splitFirst_append '-' _ hcoreD (joinSep '.' ((q0 :: qt).map preIdChars))
      simp only [semverParse?, h1, h2, hsplitCore, hjoinPre, hmapPre]
      simp [hMn, hmn, hpn]
    | cons b0 bt =>
      have hchars : semverChars ⟨M, m, p, q0 :: qt, b0 :: bt⟩
          = (coreChars M m p ++ '-' :: joinSep '.' ((q0 :: qt).map preIdChars))
            ++ '+' :: joinSep '.' (b0 :: bt) := by
        simp [semverChars, coreChars, List.append_assoc]
      rw [hchars]
      have hplusAll : ('+' : Char) ∉
          coreChars M m p ++ '-' :: joinSep '.' ((q0 :: qt).map preIdChars) := by
        intro hmem
        rcases List.mem_append.mp hmem with h1 | h1
        · exact hcoreP h1
        · rcases List.mem_cons.mp h1 with h2 | h2
          · exact absurd h2 (by decide)
          · exact hplusP h2
      have h1 := splitFirst_append '+' _ hplusAll (joinSep '.' (b0 :: bt))
      have h2 := splitFirst_append '-' _ hcoreD (joinSep '.' ((q0 :: qt).map preIdChars))
      have h3 := splitSep_join '.' (b0 :: bt) (by simp) hdotBuild
      have h4 := mapM_parseBuildId (b0 :: bt) hbuild'
      simp only [semverParse?, h1, h2, hsplitCore, hjoinPre, hmapPre, h3, h4]
      simp [hMn, hmn, hpn]

theorem semverChars_head_digit (v : SemVer) :
    ∃ c, (semverChars v).head? = some c ∧ c.isDigit = true := by
  obtain ⟨c, cs, hc⟩ := List.exists_cons_of_ne_nil (natChars_ne_nil v.major)
  refine ⟨c, ?_, ?_⟩
  · simp [semverChars, hc]
  · by_contra hnd
    exact not_mem_natChars hnd v.major (hc ▸ List.mem_cons_self c cs)

theorem toStr_ne_reserved (v : SemVer) :
    SemVer.toStr v ≠ "unknown" ∧ SemVer.toStr v ≠ "installed" := by
  obtain ⟨c, hhead, hdig⟩ := semverChars_head_digit v
  constructor
  · intro he
    have hd : semverChars v = "unknown".data := congrArg String.data he
    rw [hd] at hhead
    have hcu : c = 'u' := Option.some.inj ((rfl : ("unknown".data).head? = some 'u') ▸ hhead).symm
    rw [hcu] at hdig
    exact absurd hdig (by decide)
  · intro he
    have hd : semverChars v = "installed".data := congrArg String.data he
    rw [hd] at hhead
    have hci : c = 'i' := Option.some.inj ((rfl : ("installed".data).head? = some 'i') ▸ hhead).symm
    rw [hci] at hdig
    exact absurd hdig (by decide)

theorem deserialize_toStr (v : SemVer) (h : SemVer.wf v = true) :
    Version.deserialize (SemVer.toStr v) = Version.Valid v := by
  obtain ⟨hne1, hne2⟩ := toStr_ne_reserved v
  have hparse : semverParseStr? (SemVer.toStr v) = some v := by
    show semverParse? (SemVer.toStr v).data = some v
    show semverParse? (semverChars v) = some v
    exact semverParse_semverChars v h
  simp [Version.deserialize, hne1, hne2, hparse]

/-- C10, amended: `Version`'s string serialization round-trips for `Unknown`,
`Installed`, every `Valid v` with a representable semver value `v`, and every
`Invalid x` whose text is neither a reserved keyword (`"unknown"`,
`"installed"`) nor itself parseable as a semver version. (The unrestricted
claim fails: `Invalid "unknown"` deserializes to `Unknown`.) -/
theorem version_roundtrip_c10_amended (v : Version)
    (h : match v with
      | .Unknown => True
      | .Installed => True
      | .Valid s => SemVer.wf s = true
      | .Invalid x => x ≠ "unknown" ∧ x ≠ "installed" ∧ semverParseStr? x = none) :
    Version.deserialize (Version.serialize v) = v := by
  cases v with
  | Unknown => decide
  | Installed => decide
  | Valid s => exact deserialize_toStr s h
  | Invalid x =>
    obtain ⟨h1, h2, h3⟩ := h
    simp [Version.serialize, Version.deserialize, h1, h2, h3]

/-- C10 witness: the amended round trip at concrete inputs covering all four
constructors. -/
theorem version_roundtrip_c10_witness :
    Version.deserialize (Version.serialize (Version.Valid ⟨1, 2, 3, [], []⟩))
        = Version.Valid ⟨1, 2, 3, [], []⟩ ∧
    Version.deserialize (Version.serialize Version.Unknown) = Version.Unknown ∧
    Version.deserialize (Version.serialize Version.Installed) = Version.Installed ∧
    Version.deserialize (Version.serialize (Version.Invalid "garbage"))
        = Version.Invalid "garbage" :=
  ⟨version_roundtrip_c10_amended (Version.Valid ⟨1, 2, 3, [], []⟩) (by decide),
   version_roundtrip_c10_amended Version.Unknown trivial,
   version_roundtrip_c10_amended Version.Installed trivial,
   version_roundtrip_c10_amended (Version.Invalid "garbage")
     ⟨by decide, by decide, by decide⟩⟩

/-- C10 counterexample: the unrestricted round trip fails — serializing
`Invalid "unknown"` gives the string `"unknown"`, which deserializes to
`Unknown`, not back to `Invalid "unknown"`. -/
theorem version_roundtrip_c10_counterexample :
    Version.deserialize (Version.serialize (Version.Invalid "unknown"))
        = Version.Unknown ∧
    Version.deserialize (Version.serialize (Version.Invalid "unknown"))
        ≠ Version.Invalid "unknown" := by
  decide

end H2O2
